import Mathlib

/-!
A verification development of the `audit` package: an audit-and-rollback
engine for in-memory domain objects.  The Go source is shallowly embedded:
pure functions become Lean functions, the mutable `AuditableValues`
aggregate becomes explicit state passing on `List auditHistory`, machine
integers become `Int`, fallible code returns `Except`/`Option`, and a Go
panic is modelled as a distinguished outcome (`none` / `DOut.panic`).

Modelling conventions:
* `Time` (Go `time.Time`) is an instant measured in nanoseconds since the
  Go zero time (January 1, year 1, UTC), as an `Int`; `0` is the zero
  `Time`.  All times are UTC instants (zone offset 0), so the serializer's
  zone-offset guard never fires and is not modelled.
* Go `float64` payloads are modelled as an abstract numeric carrier
  (`Int`) on which Go `==` is Lean `=`; IEEE anomalies (`NaN`, `-0.0`)
  are outside the scope of this embedding.
* Go strings are Lean `String`; `strings.Split(s, "/")` is modelled
  character-faithfully on `s.toList`.
* The byte-buffer library (`bufrw`, an external dependency treated by the
  spec as a given I/O abstraction that merely round-trips) is modelled as
  a stream of typed tokens, one per `WriteX`/`ReadX` call; a read of the
  wrong kind fails with an I/O error.
-/

namespace Audit

/-! ## Value universe (Go: `Field.Value interface{}`, closed set of shapes) -/

/-- The closed tagged union of field value shapes used by the engine.
`magic` carries the Go `magicValue` (an `int8`); `i32` carries Go `int`,
`i64` carries Go `int64`, `f64` the float carrier. -/
inductive Value where
  | magic (v : Int)
  | str (s : String)
  | boolV (b : Bool)
  | i32 (n : Int)
  | i64 (n : Int)
  | f64 (x : Int)
  | strs (l : List String)
  | bools (l : List Bool)
  | i32s (l : List Int)
  | i64s (l : List Int)
  | f64s (l : List Int)
  | bytes (l : List Nat)
deriving DecidableEq, Repr

/-- Go: `magicValueHistoryCreation magicValue = 0`. -/
def magicValueHistoryCreation : Value := .magic 0

/-- Go: `magicValueFieldRemoved magicValue = 1`. -/
def magicValueFieldRemoved : Value := .magic 1

/-- Go: `func equals(value1, value2 interface{}) bool`.  The Go switch has
no case for `magicValue`, so a magic first argument hits the `default`
branch and panics; this is modelled as `none`.  All other cases return
`ok && v1 == v2` (same dynamic type and equal payload). -/
def equals : Value → Value → Option Bool
  | .magic _, _ => none
  | .str a, v => some (match v with | .str b => a == b | _ => false)
  | .boolV a, v => some (match v with | .boolV b => a == b | _ => false)
  | .i32 a, v => some (match v with | .i32 b => a == b | _ => false)
  | .i64 a, v => some (match v with | .i64 b => a == b | _ => false)
  | .f64 a, v => some (match v with | .f64 b => a == b | _ => false)
  | .strs a, v => some (match v with | .strs b => a == b | _ => false)
  | .bools a, v => some (match v with | .bools b => a == b | _ => false)
  | .i32s a, v => some (match v with | .i32s b => a == b | _ => false)
  | .i64s a, v => some (match v with | .i64s b => a == b | _ => false)
  | .f64s a, v => some (match v with | .f64s b => a == b | _ => false)
  | .bytes a, v => some (match v with | .bytes b => a == b | _ => false)

/-- Whether a value is one of the magic markers' shape. -/
def Value.isMagic : Value → Bool
  | .magic _ => true
  | _ => false

/-! ## Fields and field slices (Go: `Field`, `fieldSlice`) -/

/-- Go: `type Field struct { Name string; Value interface{} }`. -/
structure Field where
  name : String
  value : Value
deriving DecidableEq, Repr

/-- Go: `type fieldSlice []Field`. -/
abbrev FieldSlice := List Field

namespace FieldSlice

/-- Go: `func (s fieldSlice) IndexOf(name string) int` — index of the first
field with the given name, `-1` if absent. -/
def IndexOf (s : FieldSlice) (name : String) : Int :=
  match s with
  | [] => -1
  | f :: rest =>
    if f.name = name then 0
    else
      match IndexOf rest name with
      | -1 => -1
      | i => i + 1

/-- Go: `func (s fieldSlice) Contains(name string) bool`. -/
def Contains (s : FieldSlice) (name : String) : Bool :=
  s.IndexOf name != -1

/-- Go: `func (s fieldSlice) TryGet(name string) (Field, bool)` — the first
field with the given name (`none` plays the role of `(Field{}, false)`). -/
def TryGet (s : FieldSlice) (name : String) : Option Field :=
  match s with
  | [] => none
  | f :: rest => if f.name = name then some f else TryGet rest name

/-- Go: `func (s *fieldSlice) Remove(name string)` — swap the found index
with the last element, then shrink by one. -/
def Remove (s : FieldSlice) (name : String) : FieldSlice :=
  match s.IndexOf name with
  | Int.negSucc _ => s
  | Int.ofNat i => (s.set i (s.getLast?.getD ⟨name, .magic 0⟩)).take (s.length - 1)

/-- Go: `func (s *fieldSlice) Set(name string, value interface{})` —
replace in place if present, else append. -/
def Set (s : FieldSlice) (name : String) (value : Value) : FieldSlice :=
  match s.IndexOf name with
  | Int.negSucc _ => s ++ [⟨name, value⟩]
  | Int.ofNat i => s.set i ⟨name, value⟩

end FieldSlice

/-! ## Time (Go: `time.Time`) -/

/-- An instant: nanoseconds since the Go zero time (year 1, UTC).
`0` is the zero `Time`. -/
abbrev Time := Int

/-- Go: `t.IsZero()`. -/
def Time.IsZero (t : Time) : Bool := t == 0

/-- Nanoseconds from the Go zero time to the Unix epoch
(1970-01-01T00:00:00Z): 62135596800 seconds. -/
def unixEpochNano : Int := 62135596800 * 1000000000

/-- Go: `t.UnixNano()`. -/
def Time.UnixNano (t : Time) : Int := t - unixEpochNano

/-- Go: `time.Unix(0, n).In(time.UTC)` for `n > 0`. -/
def timeOfUnixNano (n : Int) : Time := n + unixEpochNano

/-! ## Auditor (Go: `Auditor` in auditor.go) -/

/-- Go: `type Auditor struct { kind AuditorKind; id string }`. -/
structure Auditor where
  kind : String
  id : String
deriving DecidableEq, Repr

/-- Go: `func (auditor Auditor) Encode() string`. -/
def Auditor.Encode (a : Auditor) : String := a.kind ++ "/" ++ a.id

/-- Go: `strings.Split(src, sep)` for a single-character separator,
character-faithful on the rune list. -/
def splitOnChar (sep : Char) : List Char → List (List Char)
  | [] => [[]]
  | c :: rest =>
    if c = sep then [] :: splitOnChar sep rest
    else
      match splitOnChar sep rest with
      | [] => [[c]]
      | h :: t => (c :: h) :: t

/-- Go: `func (auditor *Auditor) Decode(src string) error` — split on `/`,
require exactly two parts. -/
def Auditor.Decode (src : String) : Option Auditor :=
  match splitOnChar '/' src.toList with
  | [k, i] => some ⟨String.mk k, String.mk i⟩
  | _ => none

/-! ## Signature (Go: `Signature`) -/

/-- Go: `type Signature struct { auditor Auditor; timestamp time.Time }`. -/
structure Signature where
  auditor : Auditor
  timestamp : Time
deriving DecidableEq, Repr

/-- The zero `Signature` (Go: `Signature{}`). -/
def Signature.zero : Signature := ⟨⟨"", ""⟩, 0⟩

/-! ## History model (Go: `auditHistory`, `AuditableValues`) -/

/-- Go: `type auditHistory struct { fields fieldSlice; signature Signature }`. -/
structure auditHistory where
  fields : FieldSlice
  signature : Signature
deriving DecidableEq, Repr

/-- The state of an `AuditableValues` aggregate: its (mutable, in Go)
history list, passed explicitly here. -/
abbrev History := List auditHistory

/-- Go: `func (values *AuditableValues) CreationSignature() Signature`. -/
def CreationSignature (values : History) : Signature :=
  match values with
  | [] => Signature.zero
  | h :: _ => h.signature

/-- Go: `func (values *AuditableValues) Signatures() SignatureSlice`. -/
def Signatures (values : History) : List Signature :=
  values.map (·.signature)

/-- Go: `func (values *AuditableValues) SignaturesForField(fieldName string)
SignatureSlice` — starts from `[CreationSignature]` and appends the
signature of every history entry (including entry 0) that carries a field
with the given name. -/
def SignaturesForField (values : History) (fieldName : String) : List Signature :=
  CreationSignature values ::
    (values.filter (fun h => h.fields.any (fun f => f.name = fieldName))).map (·.signature)

/-! ## Errors (Go: `error` values created by `fmt.Errorf` / `ErrDidNotExist`) -/

/-- Time rendering used inside error messages; abstracts Go's `time.Time`
formatting (an injective rendering of the instant). -/
def timeString (t : Time) : String := toString t

/-- The Go error values produced by the engine, one constructor per
creation site, carrying the values interpolated into the message. -/
inductive GoErr where
  | errDidNotExist
  | emptyHistory
  | alreadyRolledBack (tRollback t : Time)
  | oldObjNil
  | invalidSigTimestamp (sigTs tLatest : Time)
  | auditRolledBack
  | rollbackWrapped (e : GoErr)
  | ioError
  | invalidVersion (n : Nat)
  | unsupportedVersion (n : Int)
  | invalidAuditorEncoding (s : String)
  | negativeUnixNano (n : Int)
  | sigOutOfBounds (t : Time)
  | invalidValueType (n : Nat)
  | objErr (s : String)
deriving DecidableEq, Repr

/-- The Go message text of each error value. -/
def GoErr.message : GoErr → String
  | .errDidNotExist => "the object did not exist at the given time"
  | .emptyHistory => "invalid state: empty history"
  | .alreadyRolledBack tR t =>
      "object is already rolled back to a timestamp earlier than t (tRollback: "
        ++ timeString tR ++ ", t: " ++ timeString t ++ ")"
  | .oldObjNil => "oldObj cannot be nil when there is an audit history. Only allowed on initial audit"
  | .invalidSigTimestamp sigTs tLatest =>
      "invalid signature timestamp: must be after latest audit timestamp (signature: "
        ++ timeString sigTs ++ ", latest audit: " ++ timeString tLatest ++ ")"
  | .auditRolledBack => "cannot audit based on a rolled back object"
  | .rollbackWrapped e => "error rolling back object: " ++ e.message
  | .ioError => "io error"
  | .invalidVersion n => "invalid version number: " ++ toString n
  | .unsupportedVersion n => "unsupported version number: " ++ toString n
  | .invalidAuditorEncoding s => "invalid encoded actor: " ++ s
  | .negativeUnixNano n => "invalid unix nano value found: " ++ toString n
  | .sigOutOfBounds t => "signature timestamp " ++ timeString t ++ " is out of bounds"
  | .invalidValueType n => "invalid value type: " ++ toString n
  | .objErr s => s

/-! ## AuditableObject (Go: interface `AuditableObject`) -/

/-- The observable state of a Go object behind the `AuditableObject`
interface: its fields and its rollback timestamp. -/
structure ObjState where
  fields : FieldSlice
  tRollback : Time
deriving DecidableEq, Repr

/-- A model of a Go value implementing `AuditableObject`: the result its
`GetFields` reports, and the error its `SetFields` returns (if any).
Object field slices are modelled as non-nil Go slices. -/
structure AuditableObject where
  get : Except GoErr ObjState
  setErr : Option GoErr
deriving Repr

/-- An object whose `GetFields` and `SetFields` succeed and whose
`tRollback` is zero (a live object). -/
def liveObj (fields : FieldSlice) : AuditableObject :=
  ⟨.ok ⟨fields, 0⟩, none⟩

/-! ## Diff-on-audit (Go: `getHistoryFields`) -/

/-- The loop body pair of Go `getHistoryFields`: the first loop collects
fields of `oldFields` whose name is absent from `newFields`; the second
loop walks `newFields` appending the old field when the value differs
(`equals` may panic, modelled by `none`) or a `FIELD_REMOVED` marker when
the name is absent from `oldFields`. -/
def historyLoop2 (oldFields : FieldSlice) : FieldSlice → Option FieldSlice
  | [] => some []
  | newField :: rest =>
    match oldFields.TryGet newField.name with
    | some oldField =>
      match equals oldField.value newField.value with
      | none => none
      | some b =>
        match historyLoop2 oldFields rest with
        | none => none
        | some tl => some (if b then tl else oldField :: tl)
    | none =>
      match historyLoop2 oldFields rest with
      | none => none
      | some tl => some (⟨newField.name, magicValueFieldRemoved⟩ :: tl)

/-- Go: `func (_ *AuditableValues) getHistoryFields(oldFields, newFields
fieldSlice) (fieldSlice, error)`.  `oldFields = none` models the nil Go
slice (the creation case).  The Go function's `error` result is always
nil; the outer `Option` models the panic `equals` can raise. -/
def getHistoryFields (oldFields : Option FieldSlice) (newFields : FieldSlice) :
    Option FieldSlice :=
  match oldFields with
  | none => some [⟨"", magicValueHistoryCreation⟩]
  | some olds =>
    match historyLoop2 olds newFields with
    | none => none
    | some part2 => some (olds.filter (fun f => ¬ newFields.Contains f.name) ++ part2)

/-! ## Audit (Go: `func (values *AuditableValues) Audit`) -/

/-- Go: `Audit(oldObj, newObj, sig) (changed bool, err error)`, with the
receiver's history passed and returned explicitly.  The result triple is
(history after the call, `changed`, error); the outer `Option` models the
panic `equals` can raise.  `oldObj = none` models a nil `oldObj`. -/
def Audit (history : History) (oldObj : Option AuditableObject)
    (newObj : AuditableObject) (sig : Signature) :
    Option (History × Bool × Option GoErr) :=
  match history.getLast? with
  | some lastEntry =>
    match oldObj with
    | none => some (history, false, some .oldObjNil)
    | some oldO =>
      let tLatestAudit := lastEntry.signature.timestamp
      if ¬ sig.timestamp > tLatestAudit then
        some (history, false, some (.invalidSigTimestamp sig.timestamp tLatestAudit))
      else auditBody history (some oldO) newObj sig
  | none => auditBody history oldObj newObj sig
where
  /-- The part of `Audit` after the history-nonempty guards: fetch old and
  new fields (with rolled-back checks), diff, and append when nonempty. -/
  auditBody (history : History) (oldObj : Option AuditableObject)
      (newObj : AuditableObject) (sig : Signature) :
      Option (History × Bool × Option GoErr) :=
    match oldObj with
    | some oldO =>
      match oldO.get with
      | .error e => some (history, false, some e)
      | .ok oldSt =>
        if ¬ oldSt.tRollback.IsZero then some (history, false, some .auditRolledBack)
        else auditNew history (some oldSt.fields) newObj sig
    | none => auditNew history none newObj sig
  /-- The part of `Audit` from fetching `newObj`'s fields onward. -/
  auditNew (history : History) (oldFields : Option FieldSlice)
      (newObj : AuditableObject) (sig : Signature) :
      Option (History × Bool × Option GoErr) :=
    match newObj.get with
    | .error e => some (history, false, some e)
    | .ok newSt =>
      if ¬ newSt.tRollback.IsZero then some (history, false, some .auditRolledBack)
      else
        match getHistoryFields oldFields newSt.fields with
        | none => none
        | some changedFields =>
          if changedFields.length = 0 then some (history, false, none)
          else some (history ++ [⟨changedFields, sig⟩], true, none)

/-! ## Rollback (Go: `func (values *AuditableValues) RollbackTo`) -/

/-- The `switch` body of the rollback loop: undo one delta field by
`Remove` for a `FIELD_REMOVED` marker, `Set` of the stored old value
otherwise. -/
def undoField (c : FieldSlice) (field : Field) : FieldSlice :=
  if field.value = magicValueFieldRemoved then c.Remove field.name
  else c.Set field.name field.value

/-- One entry's undo step inside the rollback loop: the two `continue`
guards, then the `switch` applying `Remove` for `FIELD_REMOVED` markers
and `Set` otherwise. -/
def rollbackStep (isRolledBack : Bool) (tRollback t : Time)
    (cur : FieldSlice) (h : auditHistory) : FieldSlice :=
  let tHistory := h.signature.timestamp
  if isRolledBack ∧ tHistory > tRollback then cur
  else if ¬ tHistory > t then cur
  else h.fields.foldl undoField cur

/-- Go: `RollbackTo(obj, t) error`, with the history passed explicitly.
On success the returned `ObjState` is exactly what was passed to the
object's `SetFields`: the reverse-applied field slice and `t` as the new
rollback timestamp. -/
def RollbackTo (values : History) (obj : AuditableObject) (t : Time) :
    Except GoErr ObjState :=
  match values with
  | [] => .error .emptyHistory
  | first :: _ =>
    if t < first.signature.timestamp then .error .errDidNotExist
    else
      match obj.get with
      | .error e => .error (.rollbackWrapped e)
      | .ok st =>
        let isRolledBack := ¬ st.tRollback.IsZero
        if isRolledBack ∧ st.tRollback < t then
          .error (.alreadyRolledBack st.tRollback t)
        else
          let cur := ((values.drop 1).reverse).foldl
            (rollbackStep isRolledBack st.tRollback t) st.fields
          match obj.setErr with
          | some e => .error e
          | none => .ok ⟨cur, t⟩

/-! ## Byte-buffer abstraction (external `bufrw` library)

The spec treats the buffer reader/writer as a given I/O abstraction whose
only relevant property is that each `WriteX` is read back by the matching
`ReadX` ("callers only need to round-trip").  The stream is modelled as a
list of typed tokens, one per write call; reading a token of the wrong
kind surfaces an I/O error. -/

/-- One `bufrw` write: `WriteByteValue`, `WriteInt`, `WriteInt64`,
`WriteString`, `WriteBool`, `WriteFloat64`, and the slice writers. -/
inductive Token where
  | byte (b : Nat)
  | int (n : Int)
  | int64 (n : Int)
  | str (s : String)
  | boolT (b : Bool)
  | float64 (x : Int)
  | strsT (l : List String)
  | boolsT (l : List Bool)
  | intsT (l : List Int)
  | int64sT (l : List Int)
  | float64sT (l : List Int)
  | bytesT (l : List Nat)
deriving DecidableEq, Repr

/-- Go conversion `byte(v)` of an `int8` value. -/
def byteOfInt8 (v : Int) : Nat := (v % 256).toNat

/-- Go conversion `magicValue(b)` = `int8` reinterpretation of a byte. -/
def int8OfByte (b : Nat) : Int :=
  if b % 256 < 128 then (b % 256 : Nat) else (b % 256 : Nat) - 256

/-! ## Signature codec (Go: `Signature.SerializeToBufRW` / `DeserializeFromBufRW`) -/

/-- Go: `minAllowed = time.Date(1970, 1, 1, 0, 0, 0, 1, time.UTC)`. -/
def minAllowed : Time := unixEpochNano + 1

/-- Go: `maxAllowed = time.Date(2200, 1, 1, 0, 0, 0, 0, time.UTC)`
(7258118400 seconds after the Unix epoch). -/
def maxAllowed : Time := unixEpochNano + 7258118400 * 1000000000

/-- Go: `func (sig Signature) SerializeToBufRW(w io.Writer, buf
*bufrw.Buffer) error` — version int 1, encoded auditor, then the
timestamp as a single int64: `0` for the zero time, else `UnixNano()`.
Timestamps are modelled as UTC instants, so the zone-offset guard never
fires.  Out-of-bounds nonzero timestamps fail. -/
def Signature.SerializeToBufRW (sig : Signature) : Except GoErr (List Token) :=
  let t := sig.timestamp
  if ¬ t.IsZero ∧ (t < minAllowed ∨ t > maxAllowed) then
    .error (.sigOutOfBounds t)
  else
    let unixNano : Int := if ¬ t.IsZero then t.UnixNano else 0
    .ok [.int 1, .str sig.auditor.Encode, .int64 unixNano]

/-- Go: `func (sig *Signature) DeserializeFromBufRW(r io.Reader, buf
*bufrw.Buffer) error` — read version int (must be 1), auditor string
(must decode), int64 nano (must be nonnegative; positive values become
`time.Unix(0, n)` in UTC, zero stays the zero time).  Returns the parsed
signature and the unread rest of the stream. -/
def Signature.DeserializeFromBufRW (toks : List Token) :
    Except GoErr (Signature × List Token) :=
  match toks with
  | .int version :: rest =>
    if version ≠ 1 then .error (.unsupportedVersion version)
    else
      match rest with
      | .str auditorString :: rest2 =>
        match Auditor.Decode auditorString with
        | none => .error (.invalidAuditorEncoding auditorString)
        | some auditor =>
          match rest2 with
          | .int64 unixNano :: rest3 =>
            if unixNano < 0 then .error (.negativeUnixNano unixNano)
            else
              let timestamp : Time := if unixNano > 0 then timeOfUnixNano unixNano else 0
              .ok (⟨auditor, timestamp⟩, rest3)
          | _ => .error .ioError
      | _ => .error .ioError
  | _ => .error .ioError

/-! ## History codec (Go: `AuditableValues.SerializeTo` / `DeserializeFrom`) -/

/-- Go: `stringSlice.IndexOf`. -/
def stringIndexOf (slice : List String) (s : String) : Int :=
  match slice with
  | [] => -1
  | x :: rest =>
    if x = s then 0
    else
      match stringIndexOf rest s with
      | -1 => -1
      | i => i + 1

/-- The name-interning pre-scan of `SerializeTo`: all distinct field names
over the whole history, in first-occurrence order. -/
def collectFieldNames (values : History) : List String :=
  values.foldl
    (fun acc obj =>
      obj.fields.foldl
        (fun acc2 field => if acc2.contains field.name then acc2 else acc2 ++ [field.name])
        acc)
    []

/-- The tokens `SerializeTo` writes for one field value: a type-tag byte
followed by the payload write. -/
def serializeValueTokens : Value → List Token
  | .magic v => [.byte 0, .byte (byteOfInt8 v)]
  | .str s => [.byte 1, .str s]
  | .boolV b => [.byte 2, .boolT b]
  | .i32 n => [.byte 3, .int n]
  | .i64 n => [.byte 4, .int64 n]
  | .f64 x => [.byte 5, .float64 x]
  | .strs l => [.byte 6, .strsT l]
  | .bools l => [.byte 7, .boolsT l]
  | .i32s l => [.byte 8, .intsT l]
  | .i64s l => [.byte 9, .int64sT l]
  | .f64s l => [.byte 10, .float64sT l]
  | .bytes l => [.byte 11, .bytesT l]

/-- The tokens `SerializeTo` writes for one field: the interned name
index, then the tagged value. -/
def serializeFieldTokens (fieldNames : List String) (field : Field) : List Token :=
  .int (stringIndexOf fieldNames field.name) :: serializeValueTokens field.value

/-- The tokens `SerializeTo` writes for the history entries (signature,
field count, fields — for each entry in order). -/
def serializeEntries (fieldNames : List String) : History → Except GoErr (List Token)
  | [] => .ok []
  | obj :: rest =>
    match obj.signature.SerializeToBufRW with
    | .error e => .error e
    | .ok sigToks =>
      match serializeEntries fieldNames rest with
      | .error e => .error e
      | .ok restToks =>
        .ok (sigToks ++ .int obj.fields.length ::
              obj.fields.flatMap (serializeFieldTokens fieldNames) ++ restToks)

/-- Go: `func (values *AuditableValues) SerializeTo(w *bufrw.Writer)
error` — version byte 1, the interned name table, the entry count, then
each entry. -/
def SerializeTo (values : History) : Except GoErr (List Token) :=
  let fieldNames := collectFieldNames values
  match serializeEntries fieldNames values with
  | .error e => .error e
  | .ok entryToks =>
    .ok (.byte 1 :: .int fieldNames.length :: fieldNames.map .str
          ++ .int values.length :: entryToks)

/-- Outcome of a deserialization: success with the unread rest, an error
return, or a Go runtime panic (index out of range / negative `make`). -/
inductive DOut (α : Type) where
  | ok (a : α) (rest : List Token)
  | err (e : GoErr)
  | panic
deriving Repr, DecidableEq

/-- The reading loop for the interned name table. -/
def readFieldNames : Nat → List Token → DOut (List String)
  | 0, toks => .ok [] toks
  | n + 1, .str key :: rest =>
    match readFieldNames n rest with
    | .ok names rest2 => .ok (key :: names) rest2
    | .err e => .err e
    | .panic => .panic
  | _ + 1, _ => .err .ioError

/-- The payload read for one type tag (Go `switch valueType`); an unknown
tag is the `default` branch's error. -/
def readValue (valueType : Nat) (toks : List Token) : DOut Value :=
  match valueType, toks with
  | 0, .byte v :: rest => .ok (.magic (int8OfByte v)) rest
  | 1, .str v :: rest => .ok (.str v) rest
  | 2, .boolT v :: rest => .ok (.boolV v) rest
  | 3, .int v :: rest => .ok (.i32 v) rest
  | 4, .int64 v :: rest => .ok (.i64 v) rest
  | 5, .float64 v :: rest => .ok (.f64 v) rest
  | 6, .strsT v :: rest => .ok (.strs v) rest
  | 7, .boolsT v :: rest => .ok (.bools v) rest
  | 8, .intsT v :: rest => .ok (.i32s v) rest
  | 9, .int64sT v :: rest => .ok (.i64s v) rest
  | 10, .float64sT v :: rest => .ok (.f64s v) rest
  | 11, .bytesT v :: rest => .ok (.bytes v) rest
  | t, _ =>
    if t ≥ 12 then .err (.invalidValueType t) else .err .ioError

/-- The reading loop for one entry's fields: name index (unchecked in the
Go source — an out-of-range index panics), type-tag byte, payload. -/
def readFields (fieldNames : List String) : Nat → List Token → DOut (List Field)
  | 0, toks => .ok [] toks
  | n + 1, .int nameIndex :: rest =>
    if h : 0 ≤ nameIndex ∧ nameIndex.toNat < fieldNames.length then
      let name := fieldNames.get ⟨nameIndex.toNat, h.2⟩
      match rest with
      | .byte valueType :: rest2 =>
        match readValue valueType rest2 with
        | .ok value rest3 =>
          match readFields fieldNames n rest3 with
          | .ok fields rest4 => .ok (⟨name, value⟩ :: fields) rest4
          | .err e => .err e
          | .panic => .panic
        | .err e => .err e
        | .panic => .panic
      | _ => .err .ioError
    else .panic
  | _ + 1, _ => .err .ioError

/-- The reading loop for the history entries. -/
def readEntries (fieldNames : List String) : Nat → List Token → DOut History
  | 0, toks => .ok [] toks
  | n + 1, toks =>
    match Signature.DeserializeFromBufRW toks with
    | .error e => .err e
    | .ok (sig, rest) =>
      match rest with
      | .int nFields :: rest2 =>
        if nFields < 0 then .panic
        else
          match readFields fieldNames nFields.toNat rest2 with
          | .ok fields rest3 =>
            match readEntries fieldNames n rest3 with
            | .ok entries rest4 => .ok (⟨fields, sig⟩ :: entries) rest4
            | .err e => .err e
            | .panic => .panic
          | .err e => .err e
          | .panic => .panic
      | _ => .err .ioError

/-- Go: `func (values *AuditableValues) DeserializeFrom(r *bufrw.Reader)
error` — version byte must be 1; then the name table, then the entries.
Negative counts panic (`make` with negative length); an out-of-range
`nameIndex` panics (unchecked slice index). -/
def DeserializeFrom (toks : List Token) : DOut History :=
  match toks with
  | .byte version :: rest =>
    if version ≠ 1 then .err (.invalidVersion version)
    else
      match rest with
      | .int nFieldNames :: rest2 =>
        if nFieldNames < 0 then .panic
        else
          match readFieldNames nFieldNames.toNat rest2 with
          | .ok fieldNames rest3 =>
            match rest3 with
            | .int nHistory :: rest4 =>
              if nHistory < 0 then .panic
              else readEntries fieldNames nHistory.toNat rest4
            | _ => .err .ioError
          | .err e => .err e
          | .panic => .panic
      | _ => .err .ioError
  | _ => .err .ioError

/-! ## Spec-side notions used to state the claims -/

/-- The value a field slice associates to a name: the value of the first
field carrying it (the association-list reading used by `TryGet`). -/
def lookupF (s : FieldSlice) (n : String) : Option Value :=
  (s.TryGet n).map (·.value)

/-- Two field slices are equal as name-to-value mappings. -/
def mapEq (a b : FieldSlice) : Prop := ∀ n, lookupF a n = lookupF b n

/-- A well-formed live-object field slice per the spec's data model:
field names are unique within the slice, and the magic marker values
(reserved for history entries) do not occur as object field values. -/
abbrev WFState (s : FieldSlice) : Prop :=
  (s.map Field.name).Nodup ∧ ∀ f ∈ s, f.value.isMagic = false

/-- The reverse-delta as the claim words it: all removed-field entries,
then all changed-field entries, then all added-field entries. -/
def specDelta (O N : FieldSlice) : FieldSlice :=
  O.filter (fun f => ¬ N.Contains f.name)
    ++ N.filterMap (fun g =>
         match O.TryGet g.name with
         | some f => if f.value = g.value then none else some f
         | none => none)
    ++ N.filterMap (fun g =>
         if O.Contains g.name then none else some ⟨g.name, magicValueFieldRemoved⟩)

/-- A Go string without the auditor separator. -/
abbrev slashFree (s : String) : Prop := '/' ∉ s.toList

/-- A `magicValue` payload within the `int8` range (a Go type invariant). -/
abbrev MagicRange : Value → Prop
  | .magic n => -128 ≤ n ∧ n < 128
  | _ => True

instance instDecidableMagicRange (v : Value) : Decidable (MagicRange v) :=
  match v with
  | .magic n => inferInstanceAs (Decidable (-128 ≤ n ∧ n < 128))
  | .str _ => .isTrue trivial
  | .boolV _ => .isTrue trivial
  | .i32 _ => .isTrue trivial
  | .i64 _ => .isTrue trivial
  | .f64 _ => .isTrue trivial
  | .strs _ => .isTrue trivial
  | .bools _ => .isTrue trivial
  | .i32s _ => .isTrue trivial
  | .i64s _ => .isTrue trivial
  | .f64s _ => .isTrue trivial
  | .bytes _ => .isTrue trivial

/-- A history the Go engine can serialize and read back: every signature
timestamp is the zero time or within the serializer's bounds, auditor
parts do not contain the `/` separator, and magic payloads fit in an
`int8` — invariants the engine maintains for histories it builds. -/
abbrev SerializableHistory (values : History) : Prop :=
  ∀ obj ∈ values,
    (obj.signature.timestamp = 0 ∨
      (minAllowed ≤ obj.signature.timestamp ∧ obj.signature.timestamp ≤ maxAllowed)) ∧
    slashFree obj.signature.auditor.kind ∧ slashFree obj.signature.auditor.id ∧
    ∀ f ∈ obj.fields, MagicRange f.value

/-- The S8-style test vector: a one-entry history carrying one field of
each of the twelve value shapes, signed at the zero time. -/
def histS8 : History :=
  [⟨[⟨"a", .magic 0⟩, ⟨"b", .str "x"⟩, ⟨"c", .boolV true⟩, ⟨"d", .i32 3⟩,
     ⟨"e", .i64 4⟩, ⟨"f", .f64 5⟩, ⟨"g", .strs ["s"]⟩, ⟨"h", .bools [true]⟩,
     ⟨"i", .i32s [1]⟩, ⟨"j", .i64s [2]⟩, ⟨"k", .f64s [3]⟩, ⟨"l", .bytes [7]⟩],
    ⟨⟨"kind", "user"⟩, 0⟩⟩]

/-! ## Helper lemmas -/

/-- `equals` on a non-magic first argument is structural equality. -/
theorem equals_eq_decide (v w : Value) (hv : v.isMagic = false) :
    equals v w = some (decide (v = w)) := by
  cases v <;> simp [Value.isMagic] at hv <;> cases w <;>
    simp [equals, beq_iff_eq] <;>
    first
      | rfl
      | · rename_i a b
          by_cases hab : a = b <;> simp [hab]

/-- `TryGet` finds a member itself when names are unique. -/
theorem tryGet_self_of_nodup (s : FieldSlice) (hnd : (s.map Field.name).Nodup)
    (g : Field) (hg : g ∈ s) : s.TryGet g.name = some g := by
  induction s with
  | nil => cases hg
  | cons f rest ih =>
    simp only [List.map_cons, List.nodup_cons] at hnd
    rcases List.mem_cons.mp hg with rfl | hmem
    · simp [FieldSlice.TryGet]
    · have hne : f.name ≠ g.name := by
        intro he
        exact hnd.1 (he ▸ List.mem_map_of_mem Field.name hmem)
      simp [FieldSlice.TryGet, hne, ih hnd.2 hmem]

/-- `IndexOf` at a cons whose head matches. -/
theorem indexOf_cons_eq (f : Field) (rest : FieldSlice) (n : String)
    (he : f.name = n) : FieldSlice.IndexOf (f :: rest) n = 0 := by
  simp [FieldSlice.IndexOf, he]

/-- `IndexOf` at a cons whose head misses, tail absent. -/
theorem indexOf_cons_neg (f : Field) (rest : FieldSlice) (n : String)
    (he : ¬ f.name = n) (h : FieldSlice.IndexOf rest n = -1) :
    FieldSlice.IndexOf (f :: rest) n = -1 := by
  simp [FieldSlice.IndexOf, he, h]

/-- `IndexOf` at a cons whose head misses, tail found. -/
theorem indexOf_cons_nonneg (f : Field) (rest : FieldSlice) (n : String) (k : Nat)
    (he : ¬ f.name = n) (h : FieldSlice.IndexOf rest n = Int.ofNat k) :
    FieldSlice.IndexOf (f :: rest) n = Int.ofNat k + 1 := by
  simp only [FieldSlice.IndexOf, he, if_false]
  rw [h]
  rfl

/-- `IndexOf` returns `-1` or a nonnegative index. -/
theorem indexOf_cases (s : FieldSlice) (n : String) :
    s.IndexOf n = -1 ∨ ∃ k : Nat, s.IndexOf n = Int.ofNat k := by
  induction s with
  | nil => left; rfl
  | cons f rest ih =>
    by_cases he : f.name = n
    · right; exact ⟨0, indexOf_cons_eq f rest n he⟩
    · rcases ih with h | ⟨k, hk⟩
      · left; exact indexOf_cons_neg f rest n he h
      · right; exact ⟨k + 1, by rw [indexOf_cons_nonneg f rest n k he hk]; rfl⟩

/-- `IndexOf` is `-1` exactly when the name is absent. -/
theorem indexOf_neg_iff (s : FieldSlice) (n : String) :
    s.IndexOf n = -1 ↔ n ∉ s.map Field.name := by
  induction s with
  | nil => simp [FieldSlice.IndexOf]
  | cons f rest ih =>
    by_cases he : f.name = n
    · simp [indexOf_cons_eq f rest n he, he]
    · rcases indexOf_cases rest n with h | ⟨k, hk⟩
      · simp [indexOf_cons_neg f rest n he h, ih.mp h, Ne.symm he]
      · have hmem : n ∈ rest.map Field.name := by
          by_contra hn
          rw [← ih] at hn
          rw [hn] at hk
          cases hk
        rw [indexOf_cons_nonneg f rest n k he hk]
        simp only [List.map_cons, List.mem_cons, hmem, or_true, not_true_eq_false, iff_false]
        intro hc
        rw [Int.ofNat_eq_natCast] at hc
        omega

/-- `Contains` tests name membership. -/
theorem contains_iff (s : FieldSlice) (n : String) :
    s.Contains n = true ↔ n ∈ s.map Field.name := by
  constructor
  · intro h
    by_contra hn
    have := (indexOf_neg_iff s n).mpr hn
    simp [FieldSlice.Contains, this] at h
  · intro h
    have hne : s.IndexOf n ≠ -1 := fun hc => ((indexOf_neg_iff s n).mp hc) h
    simp [FieldSlice.Contains, bne_iff_ne, hne]

/-- `TryGet` is `none` exactly when the name is absent. -/
theorem tryGet_none_iff (s : FieldSlice) (n : String) :
    s.TryGet n = none ↔ n ∉ s.map Field.name := by
  induction s with
  | nil => simp [FieldSlice.TryGet]
  | cons f rest ih =>
    by_cases he : f.name = n
    · simp [FieldSlice.TryGet, he]
    · simp [FieldSlice.TryGet, he, ih, Ne.symm he]

/-- A found field is a member carrying the looked-up name. -/
theorem tryGet_mem (s : FieldSlice) (n : String) (f : Field)
    (h : s.TryGet n = some f) : f ∈ s ∧ f.name = n := by
  induction s with
  | nil => simp [FieldSlice.TryGet] at h
  | cons g rest ih =>
    simp only [FieldSlice.TryGet] at h
    split at h
    · cases h
      exact ⟨List.mem_cons_self _ _, by assumption⟩
    · obtain ⟨hm, hn⟩ := ih h
      exact ⟨List.mem_cons_of_mem _ hm, hn⟩

/-- The changed-or-added delta entry contributed by one new field: the
old field when the value differs, a `FIELD_REMOVED` marker when the name
is new, nothing when unchanged. -/
def deltaFun (O : FieldSlice) (g : Field) : Option Field :=
  match O.TryGet g.name with
  | some f => if f.value = g.value then none else some f
  | none => some ⟨g.name, magicValueFieldRemoved⟩

/-- On a no-magic slice `historyLoop2` never panics and computes the
changed/added part of the delta, interleaved in new-field order. -/
theorem historyLoop2_eq (O : FieldSlice) (hO : ∀ f ∈ O, f.value.isMagic = false) :
    ∀ N : FieldSlice, historyLoop2 O N = some (N.filterMap (deltaFun O)) := by
  intro N
  induction N with
  | nil => simp [historyLoop2]
  | cons g rest ih =>
    cases htg : O.TryGet g.name with
    | some f =>
      have hfO : f ∈ O := by
        clear ih
        induction O with
        | nil => simp [FieldSlice.TryGet] at htg
        | cons x xs ihO =>
          simp only [FieldSlice.TryGet] at htg
          split at htg
          · cases htg; exact List.mem_cons_self _ _
          · exact List.mem_cons_of_mem _ (ihO (fun f hf => hO f (List.mem_cons_of_mem _ hf)) htg)
      have hmag := hO f hfO
      simp only [historyLoop2, htg, equals_eq_decide f.value g.value hmag, ih,
        List.filterMap_cons, deltaFun]
      by_cases hv : f.value = g.value <;> simp [hv]
    | none =>
      simp [historyLoop2, htg, ih, List.filterMap_cons, deltaFun]

/-! ### `Set` lemmas -/

/-- `Set` at a cons whose head matches. -/
theorem set_cons_eq (f : Field) (rest : FieldSlice) (n : String) (v : Value)
    (he : f.name = n) : FieldSlice.Set (f :: rest) n v = ⟨n, v⟩ :: rest := by
  simp only [FieldSlice.Set, indexOf_cons_eq f rest n he]
  rfl

/-- `Set` at a cons whose head misses. -/
theorem set_cons_ne (f : Field) (rest : FieldSlice) (n : String) (v : Value)
    (he : ¬ f.name = n) :
    FieldSlice.Set (f :: rest) n v = f :: FieldSlice.Set rest n v := by
  rcases indexOf_cases rest n with h | ⟨k, hk⟩
  · simp only [FieldSlice.Set, indexOf_cons_neg f rest n he h, h]
    rfl
  · simp only [FieldSlice.Set, indexOf_cons_nonneg f rest n k he hk, hk]
    rfl

/-- The effect of `Set` on lookups. -/
theorem tryGet_set (s : FieldSlice) (n : String) (v : Value) (m : String) :
    FieldSlice.TryGet (FieldSlice.Set s n v) m
      = if m = n then some ⟨n, v⟩ else FieldSlice.TryGet s m := by
  induction s with
  | nil =>
    by_cases hm : m = n
    · simp [FieldSlice.Set, FieldSlice.IndexOf, FieldSlice.TryGet, hm]
    · simp [FieldSlice.Set, FieldSlice.IndexOf, FieldSlice.TryGet, hm, Ne.symm hm]
  | cons f rest ih =>
    by_cases he : f.name = n
    · rw [set_cons_eq f rest n v he]
      by_cases hm : m = n
      · simp [FieldSlice.TryGet, hm]
      · simp [FieldSlice.TryGet, hm, Ne.symm hm, he]
    · rw [set_cons_ne f rest n v he]
      by_cases hf : f.name = m
      · have hm : ¬ m = n := fun h => he (h ▸ hf)
        simp [FieldSlice.TryGet, hf, hm]
      · simp [FieldSlice.TryGet, hf, ih]

/-- The names after a `Set`: unchanged when present, appended when not. -/
theorem map_name_set (s : FieldSlice) (n : String) (v : Value) :
    (FieldSlice.Set s n v).map Field.name
      = if n ∈ s.map Field.name then s.map Field.name else s.map Field.name ++ [n] := by
  induction s with
  | nil =>
    show List.map Field.name (FieldSlice.Set [] n v) = _
    simp only [List.map_nil, List.not_mem_nil, if_false, List.nil_append]
    rfl
  | cons f rest ih =>
    by_cases he : f.name = n
    · simp [set_cons_eq f rest n v he, he]
    · rw [set_cons_ne f rest n v he]
      by_cases hmem : n ∈ rest.map Field.name
      · simp [hmem, ih, Ne.symm he]
      · simp [hmem, ih, Ne.symm he]

/-- `Set` preserves name uniqueness. -/
theorem nodup_set (s : FieldSlice) (n : String) (v : Value)
    (h : (s.map Field.name).Nodup) : ((FieldSlice.Set s n v).map Field.name).Nodup := by
  rw [map_name_set]
  by_cases hmem : n ∈ s.map Field.name
  · simpa [hmem] using h
  · simp [hmem, List.nodup_append, h]

/-! ### `Remove` lemmas -/

/-- A found index is inside the slice. -/
theorem indexOf_lt_length (s : FieldSlice) (n : String) (k : Nat)
    (hk : FieldSlice.IndexOf s n = Int.ofNat k) : k < s.length := by
  induction s generalizing k with
  | nil => cases hk
  | cons f rest ih =>
    by_cases he : f.name = n
    · rw [indexOf_cons_eq f rest n he, Int.ofNat_eq_natCast] at hk
      have : k = 0 := by omega
      simp [this]
    · rcases indexOf_cases rest n with h | ⟨j, hj⟩
      · rw [indexOf_cons_neg f rest n he h] at hk
        cases hk
      · rw [indexOf_cons_nonneg f rest n j he hj] at hk
        simp only [Int.ofNat_eq_natCast] at hk
        have hkj : k = j + 1 := by omega
        have := ih j hj
        simp only [hkj, List.length_cons]
        omega

/-- `Remove` when the name is absent. -/
theorem remove_not_contains (s : FieldSlice) (n : String)
    (h : FieldSlice.IndexOf s n = -1) : FieldSlice.Remove s n = s := by
  simp only [FieldSlice.Remove, h]
  rfl

/-- `Remove` at a cons whose head matches is a permutation of the tail. -/
theorem remove_cons_eq (f : Field) (rest : FieldSlice) (n : String)
    (he : f.name = n) : (FieldSlice.Remove (f :: rest) n).Perm rest := by
  rcases List.eq_nil_or_concat rest with rfl | ⟨A, b, hab⟩
  · simp only [FieldSlice.Remove, indexOf_cons_eq f [] n he]
    rfl
  · rw [List.concat_eq_append] at hab
    subst hab
    have hL : FieldSlice.Remove (f :: (A ++ [b])) n = b :: A := by
      simp only [FieldSlice.Remove, indexOf_cons_eq f (A ++ [b]) n he]
      show ((f :: (A ++ [b])).set 0 (((f :: (A ++ [b])).getLast?).getD ⟨n, .magic 0⟩)).take
          ((f :: (A ++ [b])).length - 1) = b :: A
      rw [List.getLast?_cons, List.getLast?_concat]
      have harith : (f :: (A ++ [b])).length - 1 = A.length + 1 := by simp
      rw [harith]
      simp only [Option.getD_some, List.set_cons_zero, List.take_succ_cons]
      congr 1
      simpa using List.take_left A [b]
    rw [hL]
    exact (List.perm_append_singleton b A).symm

/-- `Remove` at a cons whose head misses and whose tail contains the name. -/
theorem remove_cons_ne (f : Field) (rest : FieldSlice) (n : String) (k : Nat)
    (he : ¬ f.name = n) (hk : FieldSlice.IndexOf rest n = Int.ofNat k) :
    FieldSlice.Remove (f :: rest) n = f :: FieldSlice.Remove rest n := by
  rcases List.eq_nil_or_concat rest with rfl | ⟨A, b, hab⟩
  · cases hk
  · rw [List.concat_eq_append] at hab
    subst hab
    simp only [FieldSlice.Remove, indexOf_cons_nonneg f (A ++ [b]) n k he hk, hk]
    show ((f :: (A ++ [b])).set (k + 1) (((f :: (A ++ [b])).getLast?).getD ⟨n, .magic 0⟩)).take
        ((f :: (A ++ [b])).length - 1)
      = f :: (((A ++ [b]).set k (((A ++ [b]).getLast?).getD ⟨n, .magic 0⟩)).take
          ((A ++ [b]).length - 1))
    rw [List.getLast?_cons, List.getLast?_concat]
    have harith1 : (f :: (A ++ [b])).length - 1 = ((A ++ [b]).length - 1) + 1 := by simp
    rw [harith1]
    simp only [Option.getD_some, List.set_cons_succ, List.take_succ_cons]

/-- Under unique names, `Remove` is (up to permutation) the filter
dropping the named field. -/
theorem remove_perm (s : FieldSlice) (n : String) (hnd : (s.map Field.name).Nodup) :
    (FieldSlice.Remove s n).Perm (s.filter (fun f => f.name != n)) := by
  induction s with
  | nil =>
    rw [remove_not_contains [] n rfl]
    rfl
  | cons f rest ih =>
    simp only [List.map_cons, List.nodup_cons] at hnd
    by_cases he : f.name = n
    · have hnotin : n ∉ rest.map Field.name := he ▸ hnd.1
      have hfil : rest.filter (fun f => f.name != n) = rest := by
        apply List.filter_eq_self.mpr
        intro g hg
        simp only [bne_iff_ne, ne_eq]
        intro hgn
        exact hnotin (hgn ▸ List.mem_map_of_mem Field.name hg)
      rw [List.filter_cons_of_neg (by simp [he])]
      rw [hfil]
      exact remove_cons_eq f rest n he
    · rw [List.filter_cons_of_pos (by simp [he])]
      rcases indexOf_cases rest n with h | ⟨k, hk⟩
      · rw [remove_not_contains (f :: rest) n (indexOf_cons_neg f rest n he h)]
        have hfil : rest.filter (fun f => f.name != n) = rest := by
          apply List.filter_eq_self.mpr
          intro g hg
          simp only [bne_iff_ne, ne_eq]
          intro hgn
          exact ((indexOf_neg_iff rest n).mp h) (hgn ▸ List.mem_map_of_mem Field.name hg)
        rw [hfil]
      · rw [remove_cons_ne f rest n k he hk]
        exact (ih hnd.2).cons f

/-- Lookup in the name-dropping filter. -/
theorem tryGet_filter_ne (s : FieldSlice) (n m : String) :
    FieldSlice.TryGet (s.filter (fun f => f.name != n)) m
      = if m = n then none else FieldSlice.TryGet s m := by
  induction s with
  | nil => by_cases hm : m = n <;> simp [FieldSlice.TryGet, hm]
  | cons f rest ih =>
    by_cases he : f.name = n
    · rw [List.filter_cons_of_neg (by simp [he])]
      by_cases hm : m = n
      · subst hm
        simpa using ih
      · have : ¬ f.name = m := fun hc => hm (hc ▸ he ▸ rfl)
        simp only [FieldSlice.TryGet, this, if_false, ih, hm, if_false]
    · rw [List.filter_cons_of_pos (by simp [he])]
      by_cases hf : f.name = m
      · have hm : ¬ m = n := fun hc => he (hc ▸ hf)
        simp [FieldSlice.TryGet, hf, hm]
      · simp only [FieldSlice.TryGet, hf, if_false, ih]

/-- With unique names, `TryGet` only depends on the underlying set of
fields: it is invariant under permutation. -/
theorem tryGet_perm (s t : FieldSlice) (hp : s.Perm t)
    (hnd : (s.map Field.name).Nodup) (m : String) :
    FieldSlice.TryGet s m = FieldSlice.TryGet t m := by
  cases hs : FieldSlice.TryGet s m with
  | some f =>
    obtain ⟨hmem, hname⟩ := tryGet_mem s m f hs
    have hmem2 : f ∈ t := hp.mem_iff.mp hmem
    have hnd2 : (t.map Field.name).Nodup := ((hp.map Field.name).nodup_iff).mp hnd
    rw [← hname]
    exact (tryGet_self_of_nodup t hnd2 f hmem2).symm
  | none =>
    have hnotin : m ∉ s.map Field.name := (tryGet_none_iff s m).mp hs
    have : m ∉ t.map Field.name := fun hc => hnotin ((hp.map Field.name).mem_iff.mpr hc)
    exact ((tryGet_none_iff t m).mpr this).symm

/-- `Remove` preserves name uniqueness. -/
theorem nodup_remove (s : FieldSlice) (n : String)
    (hnd : (s.map Field.name).Nodup) :
    ((FieldSlice.Remove s n).map Field.name).Nodup := by
  refine ((remove_perm s n hnd).map Field.name).nodup_iff.mpr ?_
  exact ((List.filter_sublist s).map Field.name).nodup hnd

/-- The effect of `Remove` on lookups, under unique names. -/
theorem tryGet_remove (s : FieldSlice) (n m : String)
    (hnd : (s.map Field.name).Nodup) :
    FieldSlice.TryGet (FieldSlice.Remove s n) m
      = if m = n then none else FieldSlice.TryGet s m := by
  rw [tryGet_perm (FieldSlice.Remove s n) (s.filter (fun f => f.name != n))
      (remove_perm s n hnd) (nodup_remove s n hnd) m]
  exact tryGet_filter_ne s n m

/-! ### Undoing one delta entry -/

/-- `undoField` preserves name uniqueness. -/
theorem nodup_undoField (c : FieldSlice) (f : Field)
    (h : (c.map Field.name).Nodup) : ((undoField c f).map Field.name).Nodup := by
  unfold undoField
  split
  · exact nodup_remove c f.name h
  · exact nodup_set c f.name f.value h

/-- The effect of `undoField` on lookups, under unique names. -/
theorem tryGet_undoField (c : FieldSlice) (f : Field) (m : String)
    (h : (c.map Field.name).Nodup) :
    FieldSlice.TryGet (undoField c f) m
      = if m = f.name then
          (if f.value = magicValueFieldRemoved then none else some ⟨f.name, f.value⟩)
        else FieldSlice.TryGet c m := by
  unfold undoField
  by_cases hv : f.value = magicValueFieldRemoved
  · simp only [hv, if_true]
    exact tryGet_remove c f.name m h
  · simp only [hv, if_false]
    exact tryGet_set c f.name f.value m

/-- With unique names, two members sharing a name coincide. -/
theorem mem_name_unique (l : FieldSlice) (hnd : (l.map Field.name).Nodup)
    (f g : Field) (hf : f ∈ l) (hg : g ∈ l) (hfg : f.name = g.name) : f = g := by
  induction l with
  | nil => cases hf
  | cons x rest ih =>
    simp only [List.map_cons, List.nodup_cons] at hnd
    rcases List.mem_cons.mp hf with rfl | hf2
    · rcases List.mem_cons.mp hg with rfl | hg2
      · rfl
      · exact absurd (hfg ▸ List.mem_map_of_mem Field.name hg2) hnd.1
    · rcases List.mem_cons.mp hg with rfl | hg2
      · exact absurd (hfg ▸ List.mem_map_of_mem Field.name hf2) hnd.1
      · exact ih hnd.2 hf2 hg2

/-- Under unique names, `find?` by a member's name finds that member. -/
theorem find_name_of_mem (l : FieldSlice) (hnd : (l.map Field.name).Nodup)
    (f : Field) (hf : f ∈ l) :
    l.find? (fun x => x.name == f.name) = some f := by
  cases hfind : l.find? (fun x => x.name == f.name) with
  | none =>
    have := List.find?_eq_none.mp hfind f hf
    simp at this
  | some g =>
    have hmem := List.mem_of_find?_eq_some hfind
    have hname : g.name = f.name := by
      have := List.find?_some hfind
      simpa using this
    rw [mem_name_unique l hnd g f hmem hf hname]

/-- `find?` by an absent name returns nothing. -/
theorem find_name_none (l : FieldSlice) (m : String)
    (h : ∀ f ∈ l, f.name ≠ m) :
    l.find? (fun x => x.name == m) = none := by
  apply List.find?_eq_none.mpr
  intro x hx
  simpa using h x hx

/-- Looking up a name through a fold of `undoField` over a delta with
unique names: the delta's entry for that name wins, otherwise the
accumulator is untouched. -/
theorem foldl_undo_lookup (d : List Field) (hd : (d.map Field.name).Nodup) :
    ∀ (cur : FieldSlice), (cur.map Field.name).Nodup → ∀ m,
      lookupF (d.foldl undoField cur) m
        = (match d.find? (fun f => f.name == m) with
           | some f => if f.value = magicValueFieldRemoved then none else some f.value
           | none => lookupF cur m) := by
  induction d with
  | nil =>
    intro cur hc m
    simp [List.find?]
  | cons f rest ih =>
    intro cur hc m
    simp only [List.map_cons, List.nodup_cons] at hd
    have hstep := tryGet_undoField cur f m hc
    have hcnd2 := nodup_undoField cur f hc
    rw [List.foldl_cons]
    by_cases hm : f.name = m
    · have hfind : (f :: rest).find? (fun x => x.name == m) = some f := by
        rw [List.find?_cons_of_pos]
        simp [hm]
      rw [hfind]
      have hrest : rest.find? (fun x => x.name == m) = none := by
        apply find_name_none
        intro g hg hgname
        apply hd.1
        have : g.name ∈ rest.map Field.name := List.mem_map_of_mem Field.name hg
        rwa [hgname, ← hm] at this
      rw [ih hd.2 (undoField cur f) hcnd2 m, hrest]
      simp only [lookupF, hstep, if_pos hm.symm]
      by_cases hv : f.value = magicValueFieldRemoved
      · simp [hv]
      · simp [hv]
    · have hfind : (f :: rest).find? (fun x => x.name == m)
          = rest.find? (fun x => x.name == m) := by
        rw [List.find?_cons_of_neg]
        simp [hm]
      rw [hfind, ih hd.2 (undoField cur f) hcnd2 m]
      have : lookupF (undoField cur f) m = lookupF cur m := by
        simp only [lookupF, hstep, if_neg (fun hc2 : m = f.name => hm hc2.symm)]
      rw [this]

/-- A fold of `undoField` preserves name uniqueness. -/
theorem foldl_undo_nodup (d : List Field) :
    ∀ (cur : FieldSlice), (cur.map Field.name).Nodup →
      ((d.foldl undoField cur).map Field.name).Nodup := by
  induction d with
  | nil => intro cur hc; simpa using hc
  | cons f rest ih =>
    intro cur hc
    rw [List.foldl_cons]
    exact ih (undoField cur f) (nodup_undoField cur f hc)

/-! ### Structure of the computed reverse-delta -/

/-- On a no-magic old slice, `getHistoryFields` never panics: the delta is
the removed fields (in old order) followed by the changed-or-added
entries interleaved in new-field order. -/
theorem getHistoryFields_eq (O N : FieldSlice)
    (hO : ∀ f ∈ O, f.value.isMagic = false) :
    getHistoryFields (some O) N
      = some (O.filter (fun f => ¬ N.Contains f.name) ++ N.filterMap (deltaFun O)) := by
  simp [getHistoryFields, historyLoop2_eq O hO N]

/-- Each changed-or-added entry keeps the new field's name. -/
theorem deltaFun_name (O : FieldSlice) (g out : Field)
    (h : deltaFun O g = some out) : out.name = g.name := by
  cases htg : FieldSlice.TryGet O g.name with
  | some f =>
    simp only [deltaFun, htg] at h
    by_cases hv : f.value = g.value
    · rw [if_pos hv] at h
      cases h
    · rw [if_neg hv] at h
      cases h
      exact (tryGet_mem O g.name out htg).2
  | none =>
    simp only [deltaFun, htg] at h
    cases h
    rfl

/-- The changed-or-added part's names form a sublist of the new names. -/
theorem delta_names_sublist (O N : FieldSlice) :
    ((N.filterMap (deltaFun O)).map Field.name).Sublist (N.map Field.name) := by
  induction N with
  | nil => simp
  | cons g rest ih =>
    cases hg : deltaFun O g with
    | none =>
      rw [List.filterMap_cons_none hg]
      exact ih.cons g.name
    | some out =>
      rw [List.filterMap_cons_some hg]
      simp only [List.map_cons, deltaFun_name O g out hg]
      exact ih.cons₂ g.name

/-- The full delta has unique names. -/
theorem delta_names_nodup (O N : FieldSlice)
    (hndO : (O.map Field.name).Nodup) (hndN : (N.map Field.name).Nodup) :
    ((O.filter (fun f => ¬ N.Contains f.name) ++ N.filterMap (deltaFun O)).map
        Field.name).Nodup := by
  rw [List.map_append, List.nodup_append]
  refine ⟨((List.filter_sublist O).map Field.name).nodup hndO,
    (delta_names_sublist O N).nodup hndN, ?_⟩
  intro a ha hb
  obtain ⟨f, hf, rfl⟩ := List.mem_map.mp ha
  have hfo := List.mem_filter.mp hf
  have hnc : N.Contains f.name = false := by simpa using hfo.2
  have hmem : f.name ∈ N.map Field.name := (delta_names_sublist O N).mem hb
  rw [← contains_iff, hnc] at hmem
  exact Bool.false_ne_true hmem

/-- Undoing the computed reverse-delta on any slice mapping like the new
state recovers the old state as a name-to-value mapping. -/
theorem undo_delta (O N d : FieldSlice)
    (hndO : (O.map Field.name).Nodup) (hmagO : ∀ f ∈ O, f.value.isMagic = false)
    (hndN : (N.map Field.name).Nodup)
    (hd : getHistoryFields (some O) N = some d)
    (cur : FieldSlice) (hcnd : (cur.map Field.name).Nodup) (hcur : mapEq cur N) :
    mapEq (d.foldl undoField cur) O ∧
      ((d.foldl undoField cur).map Field.name).Nodup := by
  rw [getHistoryFields_eq O N hmagO] at hd
  have hd2 : d = O.filter (fun f => ¬ N.Contains f.name) ++ N.filterMap (deltaFun O) :=
    (Option.some_injective _ hd).symm
  subst hd2
  set P1 := O.filter (fun f => ¬ N.Contains f.name) with hP1
  set P2 := N.filterMap (deltaFun O) with hP2
  have hnd : ((P1 ++ P2).map Field.name).Nodup := delta_names_nodup O N hndO hndN
  refine ⟨?_, foldl_undo_nodup _ cur hcnd⟩
  intro m
  rw [foldl_undo_lookup (P1 ++ P2) hnd cur hcnd m]
  rw [List.find?_append]
  have hP1none_of : N.Contains m = true → P1.find? (fun x => x.name == m) = none := by
    intro hcont
    apply find_name_none
    intro x hx hxm
    have hxf := (List.mem_filter.mp hx).2
    rw [hxm, hcont] at hxf
    simp at hxf
  cases hO : FieldSlice.TryGet O m with
  | some f =>
    obtain ⟨hfO, hfname⟩ := tryGet_mem O m f hO
    have hfmag := hmagO f hfO
    have hfne : ¬ f.value = magicValueFieldRemoved := by
      intro hc
      rw [hc] at hfmag
      simp [magicValueFieldRemoved, Value.isMagic] at hfmag
    cases hN : FieldSlice.TryGet N m with
    | none =>
      have hnc : N.Contains m = false := by
        have h2 := (tryGet_none_iff N m).mp hN
        rcases Bool.eq_false_or_eq_true (N.Contains m) with h | h
        · exact absurd ((contains_iff N m).mp h) h2
        · exact h
      have hfP1 : f ∈ P1 := by
        rw [hP1]
        refine List.mem_filter.mpr ⟨hfO, ?_⟩
        rw [hfname, hnc]
        simp
      have hndP1 : (P1.map Field.name).Nodup :=
        ((List.filter_sublist O).map Field.name).nodup hndO
      have hfind := find_name_of_mem P1 hndP1 f hfP1
      rw [hfname] at hfind
      rw [hfind]
      simp [hfne, lookupF, hO]
    | some g =>
      obtain ⟨hgN, hgname⟩ := tryGet_mem N m g hN
      have hcont : N.Contains m = true := by
        rw [contains_iff]
        exact hgname ▸ List.mem_map_of_mem Field.name hgN
      rw [hP1none_of hcont]
      by_cases hv : f.value = g.value
      · have hP2none : P2.find? (fun x => x.name == m) = none := by
          apply find_name_none
          intro x hx hxm
          obtain ⟨a, haN, hax⟩ := List.mem_filterMap.mp hx
          have haname : a.name = m := (deltaFun_name O a x hax) ▸ hxm
          have hag : a = g := mem_name_unique N hndN a g haN hgN (haname.trans hgname.symm)
          rw [hag] at hax
          simp only [deltaFun, hgname, hO, if_pos hv] at hax
          cases hax
        rw [hP2none]
        have hcm := hcur m
        simp only [lookupF, hN, hO] at hcm ⊢
        simp only [Option.or_none, hcm]
        simp [hv]
      · have hdf : deltaFun O g = some f := by
          simp only [deltaFun, hgname, hO, if_neg hv]
        have hfP2 : f ∈ P2 := List.mem_filterMap.mpr ⟨g, hgN, hdf⟩
        have hndP2 : (P2.map Field.name).Nodup := (delta_names_sublist O N).nodup hndN
        have hfind := find_name_of_mem P2 hndP2 f hfP2
        rw [hfname] at hfind
        rw [hfind]
        simp [hfne, lookupF, hO]
  | none =>
    have hOnames := (tryGet_none_iff O m).mp hO
    have hP1none : P1.find? (fun x => x.name == m) = none := by
      apply find_name_none
      intro x hx hxm
      have hxO := (List.mem_filter.mp hx).1
      exact hOnames (hxm ▸ List.mem_map_of_mem Field.name hxO)
    rw [hP1none]
    cases hN : FieldSlice.TryGet N m with
    | some g =>
      obtain ⟨hgN, hgname⟩ := tryGet_mem N m g hN
      have hdf : deltaFun O g = some ⟨g.name, magicValueFieldRemoved⟩ := by
        simp only [deltaFun, hgname, hO]
      have hmP2 : (⟨g.name, magicValueFieldRemoved⟩ : Field) ∈ P2 :=
        List.mem_filterMap.mpr ⟨g, hgN, hdf⟩
      have hndP2 : (P2.map Field.name).Nodup := (delta_names_sublist O N).nodup hndN
      have hfind := find_name_of_mem P2 hndP2 _ hmP2
      simp only at hfind
      rw [hgname] at hfind
      rw [hfind]
      simp [lookupF, hO]
    | none =>
      have hNnames := (tryGet_none_iff N m).mp hN
      have hP2none : P2.find? (fun x => x.name == m) = none := by
        apply find_name_none
        intro x hx hxm
        obtain ⟨a, haN, hax⟩ := List.mem_filterMap.mp hx
        have haname : a.name = m := (deltaFun_name O a x hax) ▸ hxm
        exact hNnames (haname ▸ List.mem_map_of_mem Field.name haN)
      rw [hP2none]
      have hcm := hcur m
      simp only [lookupF, hN, hO] at hcm ⊢
      simp [hcm]

/-- An empty computed delta means old and new coincide as mappings. -/
theorem empty_delta_mapEq (O N : FieldSlice)
    (hmagO : ∀ f ∈ O, f.value.isMagic = false)
    (hd : getHistoryFields (some O) N = some []) : mapEq N O := by
  rw [getHistoryFields_eq O N hmagO] at hd
  have hnil := (Option.some_injective _ hd).symm
  have hP1 : O.filter (fun f => ¬ N.Contains f.name) = [] :=
    (List.append_eq_nil.mp hnil.symm).1
  have hP2 : N.filterMap (deltaFun O) = [] :=
    (List.append_eq_nil.mp hnil.symm).2
  intro m
  cases hO : FieldSlice.TryGet O m with
  | some f =>
    obtain ⟨hfO, hfname⟩ := tryGet_mem O m f hO
    cases hN : FieldSlice.TryGet N m with
    | none =>
      have hnc : N.Contains m = false := by
        have h2 := (tryGet_none_iff N m).mp hN
        rcases Bool.eq_false_or_eq_true (N.Contains m) with h | h
        · exact absurd ((contains_iff N m).mp h) h2
        · exact h
      have hmem : f ∈ O.filter (fun f => ¬ N.Contains f.name) := by
        refine List.mem_filter.mpr ⟨hfO, ?_⟩
        rw [hfname, hnc]
        simp
      rw [hP1] at hmem
      cases hmem
    | some g =>
      by_cases hv : f.value = g.value
      · simp [lookupF, hO, hN, hv]
      · obtain ⟨hgN, hgname⟩ := tryGet_mem N m g hN
        have hdf : deltaFun O g = some f := by
          simp only [deltaFun, hgname, hO, if_neg hv]
        have hmem : f ∈ N.filterMap (deltaFun O) := List.mem_filterMap.mpr ⟨g, hgN, hdf⟩
        rw [hP2] at hmem
        cases hmem
  | none =>
    cases hN : FieldSlice.TryGet N m with
    | some g =>
      obtain ⟨hgN, hgname⟩ := tryGet_mem N m g hN
      have hdf : deltaFun O g = some ⟨g.name, magicValueFieldRemoved⟩ := by
        simp only [deltaFun, hgname, hO]
      have hmem : (⟨g.name, magicValueFieldRemoved⟩ : Field) ∈ N.filterMap (deltaFun O) :=
        List.mem_filterMap.mpr ⟨g, hgN, hdf⟩
      rw [hP2] at hmem
      cases hmem
    | none => simp [lookupF, hO, hN]

/-! ### Building histories through `Audit` (the claims' construction) -/

/-- Iterate `Audit` over successive live object states, threading the
history.  Alongside, record for each appended entry its timestamp and the
post-audit object state (the *audited state* the claims speak of).
`none` means some audit in the run failed or panicked. -/
def runAudits (hist : History) (prev : FieldSlice) (assoc : List (Time × FieldSlice)) :
    List (FieldSlice × Signature) → Option (History × List (Time × FieldSlice))
  | [] => some (hist, assoc)
  | (s, sig) :: rest =>
    match Audit hist (some (liveObj prev)) (liveObj s) sig with
    | some (hist2, changed, none) =>
      runAudits hist2 s (if changed then assoc ++ [(sig.timestamp, s)] else assoc) rest
    | _ => none

/-- An initial creation `Audit` followed by update `Audit`s, all
required to succeed. -/
def runAuditTrace (s0 : FieldSlice) (sig0 : Signature)
    (updates : List (FieldSlice × Signature)) :
    Option (History × List (Time × FieldSlice)) :=
  match Audit [] none (liveObj s0) sig0 with
  | some (hist1, _, none) => runAudits hist1 s0 [(sig0.timestamp, s0)] updates
  | _ => none

/-- The audited state at a time: walk the (chronological) association of
entry timestamps to post-audit states, keeping the state of the latest
entry whose timestamp is at or before the target. -/
def stateAt (cur : FieldSlice) : List (Time × FieldSlice) → Time → FieldSlice
  | [], _ => cur
  | (ts, s) :: tl, t => if ts ≤ t then stateAt s tl t else cur

/-- The audited state at a time, starting from nothing (the association
always begins with the creation entry). -/
def specState (assoc : List (Time × FieldSlice)) (t : Time) : FieldSlice :=
  stateAt [] assoc t

/-- The last state of a trace. -/
def lastState (s0 : FieldSlice) (updates : List (FieldSlice × Signature)) : FieldSlice :=
  updates.foldl (fun _ u => u.1) s0

/-- The descending undo loop of `RollbackTo` on a live object
(`isRolledBack = false`, `tRollback = 0`). -/
def undoTail (hist : History) (cur : FieldSlice) (t : Time) : FieldSlice :=
  ((hist.drop 1).reverse).foldl (rollbackStep false 0 t) cur

/-- The creation audit on an empty history always succeeds and appends
the creation entry. -/
theorem audit_creation (s0 : FieldSlice) (sig0 : Signature) :
    Audit [] none (liveObj s0) sig0
      = some ([⟨[⟨"", magicValueHistoryCreation⟩], sig0⟩], true, none) := rfl

/-- A successful `Audit` either leaves the history alone or appends one
entry with the supplied signature. -/
theorem audit_success_shape (h : History) (old : Option AuditableObject)
    (new : AuditableObject) (sig : Signature) (h2 : History) (c : Bool)
    (hsucc : Audit h old new sig = some (h2, c, none)) :
    (h2 = h ∧ c = false) ∨ ∃ d, d ≠ [] ∧ h2 = h ++ [⟨d, sig⟩] ∧ c = true := by
  have hnew : ∀ hh oldF, Audit.auditNew hh oldF new sig = some (h2, c, none) →
      (h2 = hh ∧ c = false) ∨ ∃ d, d ≠ [] ∧ h2 = hh ++ [⟨d, sig⟩] ∧ c = true := by
    intro hh oldF hx
    unfold Audit.auditNew at hx
    cases hget : new.get with
    | error e => simp only [hget] at hx; cases hx
    | ok st =>
      simp only [hget] at hx
      by_cases hz : st.tRollback.IsZero
      · rw [if_neg (not_not_intro hz)] at hx
        cases hgf : getHistoryFields oldF st.fields with
        | none =>
          simp only [hgf] at hx
          cases hx
        | some cf =>
          simp only [hgf] at hx
          by_cases hlen : cf.length = 0
          · rw [if_pos hlen] at hx
            cases hx
            exact Or.inl ⟨rfl, rfl⟩
          · rw [if_neg hlen] at hx
            cases hx
            exact Or.inr ⟨cf, by simpa using hlen, rfl, rfl⟩
      · rw [if_pos hz] at hx
        cases hx
  have hbody : ∀ hh oldO, Audit.auditBody hh oldO new sig = some (h2, c, none) →
      (h2 = hh ∧ c = false) ∨ ∃ d, d ≠ [] ∧ h2 = hh ++ [⟨d, sig⟩] ∧ c = true := by
    intro hh oldO hx
    cases oldO with
    | none => exact hnew hh none hx
    | some o =>
      have hx2 : (match o.get with
          | Except.error e => some (hh, false, some e)
          | Except.ok oldSt =>
            if ¬ oldSt.tRollback.IsZero then some (hh, false, some GoErr.auditRolledBack)
            else Audit.auditNew hh (some oldSt.fields) new sig) = some (h2, c, none) := hx
      cases hget : o.get with
      | error e => simp only [hget] at hx2; cases hx2
      | ok st =>
        simp only [hget] at hx2
        by_cases hz : st.tRollback.IsZero
        · rw [if_neg (not_not_intro hz)] at hx2
          exact hnew hh (some st.fields) hx2
        · rw [if_pos hz] at hx2
          cases hx2
  cases hL : h.getLast? with
  | none =>
    have hx : Audit.auditBody h old new sig = some (h2, c, none) := by
      unfold Audit at hsucc
      rwa [hL] at hsucc
    exact hbody h old hx
  | some L =>
    unfold Audit at hsucc
    rw [hL] at hsucc
    cases old with
    | none =>
      have hx : (some (h, false, some GoErr.oldObjNil) :
          Option (History × Bool × Option GoErr)) = some (h2, c, none) := hsucc
      cases hx
    | some o =>
      have hx : (if ¬ sig.timestamp > L.signature.timestamp then
            some (h, false, some (GoErr.invalidSigTimestamp sig.timestamp
              L.signature.timestamp))
          else Audit.auditBody h (some o) new sig) = some (h2, c, none) := hsucc
      by_cases hts : sig.timestamp > L.signature.timestamp
      · rw [if_neg (not_not_intro hts)] at hx
        exact hbody h (some o) hx
      · rw [if_pos hts] at hx
        cases hx

/-- What a successful live-object update `Audit` did, given the computed
delta: the monotonicity guard passed, and the history was extended
exactly when the delta is nonempty. -/
theorem audit_live_success (hist : History) (L : auditHistory)
    (hL : hist.getLast? = some L) (prev s : FieldSlice) (sig : Signature)
    (d : FieldSlice) (hd : getHistoryFields (some prev) s = some d)
    (hist2 : History) (changed : Bool)
    (h : Audit hist (some (liveObj prev)) (liveObj s) sig = some (hist2, changed, none)) :
    sig.timestamp > L.signature.timestamp ∧
      ((d = [] ∧ hist2 = hist ∧ changed = false) ∨
        (d ≠ [] ∧ hist2 = hist ++ [⟨d, sig⟩] ∧ changed = true)) := by
  unfold Audit at h
  rw [hL] at h
  have hx : (if ¬ sig.timestamp > L.signature.timestamp then
        some (hist, false, some (GoErr.invalidSigTimestamp sig.timestamp
          L.signature.timestamp))
      else Audit.auditBody hist (some (liveObj prev)) (liveObj s) sig)
      = some (hist2, changed, none) := h
  by_cases hts : sig.timestamp > L.signature.timestamp
  · refine ⟨hts, ?_⟩
    rw [if_neg (not_not_intro hts)] at hx
    have hx2 : (if ¬ (Time.IsZero 0) then some (hist, false, some GoErr.auditRolledBack)
        else Audit.auditNew hist (some prev) (liveObj s) sig)
        = some (hist2, changed, none) := hx
    rw [if_neg (not_not_intro (by simp [Time.IsZero]))] at hx2
    have hx3 : (if ¬ (Time.IsZero 0) then some (hist, false, some GoErr.auditRolledBack)
        else match getHistoryFields (some prev) s with
          | none => none
          | some changedFields =>
            if changedFields.length = 0 then some (hist, false, none)
            else some (hist ++ [⟨changedFields, sig⟩], true, none))
        = some (hist2, changed, none) := hx2
    rw [if_neg (not_not_intro (by simp [Time.IsZero]))] at hx3
    rw [hd] at hx3
    simp only at hx3
    by_cases hlen : d.length = 0
    · rw [if_pos hlen] at hx3
      cases hx3
      exact Or.inl ⟨List.length_eq_zero.mp hlen, rfl, rfl⟩
    · rw [if_neg hlen] at hx3
      cases hx3
      exact Or.inr ⟨fun hc => hlen (by simp [hc]), rfl, rfl⟩
  · rw [if_pos hts] at hx
    cases hx

/-- Appending an entry at or before the target time makes it the audited
state, provided everything earlier is also at or before the target. -/
theorem stateAt_append_le (assoc : List (Time × FieldSlice)) (ts : Time)
    (s : FieldSlice) (t : Time) (hall : ∀ x ∈ assoc.map Prod.fst, x ≤ t)
    (hts : ts ≤ t) : ∀ cur, stateAt cur (assoc ++ [(ts, s)]) t = s := by
  induction assoc with
  | nil =>
    intro cur
    simp [stateAt, hts]
  | cons a rest ih =>
    intro cur
    obtain ⟨ats, as2⟩ := a
    have ha : ats ≤ t := hall ats (by simp)
    simp only [List.cons_append, stateAt, if_pos ha]
    exact ih (fun x hx => hall x (by simp [hx])) as2

/-- Appending an entry after the target time does not change the audited
state. -/
theorem stateAt_append_gt (assoc : List (Time × FieldSlice)) (ts : Time)
    (s : FieldSlice) (t : Time) (hts : ¬ ts ≤ t) :
    ∀ cur, stateAt cur (assoc ++ [(ts, s)]) t = stateAt cur assoc t := by
  induction assoc with
  | nil =>
    intro cur
    simp [stateAt, hts]
  | cons a rest ih =>
    intro cur
    obtain ⟨ats, as2⟩ := a
    by_cases ha : ats ≤ t
    · simp only [List.cons_append, stateAt, if_pos ha]
      exact ih as2
    · simp only [List.cons_append, stateAt, if_neg ha]

/-- In a strictly increasing list, everything is at most the last
element. -/
theorem pairwise_le_of_getLast (l : List Time) (L : Time)
    (hL : l.getLast? = some L) (hpw : List.Pairwise (· < ·) l) :
    ∀ x ∈ l, x ≤ L := by
  obtain ⟨ys, rfl⟩ := List.getLast?_eq_some_iff.mp hL
  intro x hx
  rcases List.mem_append.mp hx with h | h
  · exact le_of_lt ((List.pairwise_append.mp hpw).2.2 x h L (by simp))
  · simp only [List.mem_singleton] at h
    exact h ▸ le_refl L

/-- The live rollback step: undo the entry's fields when its timestamp is
after the target, otherwise skip. -/
theorem rollbackStep_live (cur : FieldSlice) (e : auditHistory) (t : Time) :
    rollbackStep false 0 t cur e
      = if e.signature.timestamp > t then e.fields.foldl undoField cur else cur := by
  unfold rollbackStep
  rw [if_neg (by simp)]
  by_cases hts : e.signature.timestamp > t
  · rw [if_neg (not_not_intro hts), if_pos hts]
  · rw [if_pos hts, if_neg hts]

/-- A live rollback loop over entries all at or before the target is the
identity. -/
theorem foldl_rollbackStep_skip (t : Time) :
    ∀ (l : List auditHistory) (cur : FieldSlice),
      (∀ e ∈ l, e.signature.timestamp ≤ t) →
      l.foldl (rollbackStep false 0 t) cur = cur := by
  intro l
  induction l with
  | nil => intro cur _; rfl
  | cons e rest ih =>
    intro cur hall
    rw [List.foldl_cons, rollbackStep_live,
      if_neg (not_lt_of_le (hall e (List.mem_cons_self _ _)))]
    exact ih cur (fun x hx => hall x (List.mem_cons_of_mem _ hx))

/-- The whole live undo loop is the identity when every update entry is
at or before the target. -/
theorem undoTail_skip (hist : History) (cur : FieldSlice) (t : Time)
    (h : ∀ e ∈ hist.drop 1, e.signature.timestamp ≤ t) :
    undoTail hist cur t = cur := by
  unfold undoTail
  exact foldl_rollbackStep_skip t _ cur (fun e he => h e (List.mem_reverse.mp he))

/-- The undo loop over an extended history first undoes the new last
entry. -/
theorem undoTail_append (hist : History) (e : auditHistory) (hne : hist ≠ [])
    (cur : FieldSlice) (t : Time) :
    undoTail (hist ++ [e]) cur t = undoTail hist (rollbackStep false 0 t cur e) t := by
  unfold undoTail
  have hdrop : (hist ++ [e]).drop 1 = hist.drop 1 ++ [e] := by
    cases hist with
    | nil => exact absurd rfl hne
    | cons a r => simp
  rw [hdrop, List.reverse_append]
  simp

/-- A run of update audits preserves the history head (the creation
entry) and nonemptiness. -/
theorem runAudits_head (updates : List (FieldSlice × Signature)) :
    ∀ (hist : History) (prev : FieldSlice) (assoc : List (Time × FieldSlice))
      (histOut : History) (assocOut : List (Time × FieldSlice)),
      runAudits hist prev assoc updates = some (histOut, assocOut) →
      hist ≠ [] → histOut.head? = hist.head? ∧ histOut ≠ [] := by
  induction updates with
  | nil =>
    intro hist prev assoc histOut assocOut hrun hne
    unfold runAudits at hrun
    cases hrun
    exact ⟨rfl, hne⟩
  | cons u rest ih =>
    obtain ⟨s, sig⟩ := u
    intro hist prev assoc histOut assocOut hrun hne
    unfold runAudits at hrun
    cases hA : Audit hist (some (liveObj prev)) (liveObj s) sig with
    | none =>
      simp only [hA] at hrun
      cases hrun
    | some triple =>
      obtain ⟨hist2, changed, errOpt⟩ := triple
      cases errOpt with
      | some e =>
        simp only [hA] at hrun
        cases hrun
      | none =>
        simp only [hA] at hrun
        have hne2 : hist2 ≠ [] := by
          rcases audit_success_shape hist _ _ sig hist2 changed hA with ⟨rfl, _⟩ | ⟨d, _, rfl, _⟩
          · exact hne
          · simp
        have hhead : hist2.head? = hist.head? := by
          rcases audit_success_shape hist _ _ sig hist2 changed hA with ⟨rfl, _⟩ | ⟨d, _, rfl, _⟩
          · rfl
          · cases hist with
            | nil => exact absurd rfl hne
            | cons a r => simp
        obtain ⟨h1, h2⟩ := ih hist2 s _ histOut assocOut hrun hne2
        exact ⟨h1.trans hhead, h2⟩

/-- The rollback-correctness invariant is preserved along any successful
run of update audits: undoing the produced history's update entries down
to time `t`, starting from (a slice mapping like) the final state, yields
the audited state at `t`. -/
theorem runAudits_rollback (t : Time) (updates : List (FieldSlice × Signature)) :
    ∀ (hist : History) (prev : FieldSlice) (assoc : List (Time × FieldSlice))
      (histOut : History) (assocOut : List (Time × FieldSlice)),
      runAudits hist prev assoc updates = some (histOut, assocOut) →
      hist ≠ [] →
      List.Pairwise (· < ·) (hist.map (fun e => e.signature.timestamp)) →
      assoc.map Prod.fst = hist.map (fun e => e.signature.timestamp) →
      WFState prev →
      (∀ u ∈ updates, WFState u.1) →
      (∀ cur, (cur.map Field.name).Nodup → mapEq cur prev →
          mapEq (undoTail hist cur t) (specState assoc t) ∧
            ((undoTail hist cur t).map Field.name).Nodup) →
      ∀ cur, (cur.map Field.name).Nodup → mapEq cur (lastState prev updates) →
        mapEq (undoTail histOut cur t) (specState assocOut t) ∧
          ((undoTail histOut cur t).map Field.name).Nodup := by
  induction updates with
  | nil =>
    intro hist prev assoc histOut assocOut hrun hne hpw hmapfst hWFprev hWFu hInv
      cur hcnd hcur
    unfold runAudits at hrun
    cases hrun
    exact hInv cur hcnd hcur
  | cons u rest ih =>
    obtain ⟨s, sig⟩ := u
    intro hist prev assoc histOut assocOut hrun hne hpw hmapfst hWFprev hWFu hInv
      cur hcnd hcur
    unfold runAudits at hrun
    cases hA : Audit hist (some (liveObj prev)) (liveObj s) sig with
    | none =>
      simp only [hA] at hrun
      cases hrun
    | some triple =>
      obtain ⟨hist2, changed, errOpt⟩ := triple
      cases errOpt with
      | some e =>
        simp only [hA] at hrun
        cases hrun
      | none =>
        simp only [hA] at hrun
        obtain ⟨L, hL⟩ : ∃ L, hist.getLast? = some L := by
          cases hq : hist.getLast? with
          | some L => exact ⟨L, rfl⟩
          | none => exact absurd (List.getLast?_eq_none_iff.mp hq) hne
        have hWFs : WFState s := hWFu (s, sig) (List.mem_cons_self _ _)
        have hWFrest : ∀ u ∈ rest, WFState u.1 :=
          fun u hu => hWFu u (List.mem_cons_of_mem _ hu)
        have hd : getHistoryFields (some prev) s
            = some (prev.filter (fun f => ¬ FieldSlice.Contains s f.name)
                ++ s.filterMap (deltaFun prev)) := getHistoryFields_eq prev s hWFprev.2
        obtain ⟨hts, hcases⟩ := audit_live_success hist L hL prev s sig _ hd hist2 changed hA
        have hlastle : ∀ x ∈ hist.map (fun e => e.signature.timestamp),
            x ≤ L.signature.timestamp := by
          apply pairwise_le_of_getLast _ _ _ hpw
          rw [List.getLast?_map, hL]
          rfl
        rcases hcases with ⟨hdnil, hh2, hch⟩ | ⟨hdne, hh2, hch⟩
        · rw [hh2, hch, if_neg Bool.false_ne_true] at hrun
          have hEq : mapEq s prev := empty_delta_mapEq prev s hWFprev.2 (hdnil ▸ hd)
          exact ih hist s assoc histOut assocOut hrun hne hpw hmapfst hWFs hWFrest
            (fun cur2 hcnd2 hcur2 => hInv cur2 hcnd2 (fun m => (hcur2 m).trans (hEq m)))
            cur hcnd hcur
        · rw [hh2, hch, if_pos rfl] at hrun
          set d := prev.filter (fun f => ¬ FieldSlice.Contains s f.name)
              ++ s.filterMap (deltaFun prev) with hdd
          set e : auditHistory := ⟨d, sig⟩ with he
          have hne2 : hist ++ [e] ≠ [] := by simp
          have hmapts2 : (hist ++ [e]).map (fun x => x.signature.timestamp)
              = hist.map (fun x => x.signature.timestamp) ++ [sig.timestamp] := by simp
          have hpw2 : List.Pairwise (· < ·)
              ((hist ++ [e]).map (fun x => x.signature.timestamp)) := by
            rw [hmapts2, List.pairwise_append]
            refine ⟨hpw, List.pairwise_singleton _ _, ?_⟩
            intro x hx y hy
            simp only [List.mem_singleton] at hy
            subst hy
            exact lt_of_le_of_lt (hlastle x hx) hts
          have hmapfst2 : (assoc ++ [(sig.timestamp, s)]).map Prod.fst
              = (hist ++ [e]).map (fun x => x.signature.timestamp) := by
            simp [hmapfst]
          have hInv2 : ∀ cur2, (cur2.map Field.name).Nodup → mapEq cur2 s →
              mapEq (undoTail (hist ++ [e]) cur2 t)
                  (specState (assoc ++ [(sig.timestamp, s)]) t) ∧
                ((undoTail (hist ++ [e]) cur2 t).map Field.name).Nodup := by
            intro cur2 hcnd2 hcur2
            rw [undoTail_append hist e hne cur2 t]
            by_cases hsle : sig.timestamp ≤ t
            · have hstep : rollbackStep false 0 t cur2 e = cur2 := by
                rw [rollbackStep_live]
                exact if_neg (not_lt_of_le hsle)
              rw [hstep]
              have hall : ∀ x ∈ hist.drop 1, x.signature.timestamp ≤ t := by
                intro x hx
                have hxle := hlastle x.signature.timestamp
                  (List.mem_map_of_mem _ ((List.drop_subset 1 hist) hx))
                exact le_trans hxle (le_trans (le_of_lt hts) hsle)
              rw [undoTail_skip hist cur2 t hall]
              have hsa : specState (assoc ++ [(sig.timestamp, s)]) t = s := by
                unfold specState
                apply stateAt_append_le _ _ _ _ _ hsle
                intro x hx
                rw [hmapfst] at hx
                exact le_trans (hlastle x hx) (le_trans (le_of_lt hts) hsle)
              rw [hsa]
              exact ⟨hcur2, hcnd2⟩
            · have hstep : rollbackStep false 0 t cur2 e
                  = d.foldl undoField cur2 := by
                rw [rollbackStep_live]
                exact if_pos (lt_of_not_le hsle)
              rw [hstep]
              obtain ⟨hm, hn⟩ := undo_delta prev s d hWFprev.1 hWFprev.2 hWFs.1 hd
                cur2 hcnd2 hcur2
              have hsa : specState (assoc ++ [(sig.timestamp, s)]) t
                  = specState assoc t := stateAt_append_gt assoc _ s t hsle []
              rw [hsa]
              exact hInv (d.foldl undoField cur2) hn hm
          exact ih (hist ++ [e]) s (assoc ++ [(sig.timestamp, s)]) histOut assocOut hrun
            hne2 hpw2 hmapfst2 hWFs hWFrest hInv2 cur hcnd hcur

/-- The final state of a trace stays well-formed. -/
theorem lastState_WF (updates : List (FieldSlice × Signature)) :
    ∀ s0, WFState s0 → (∀ u ∈ updates, WFState u.1) →
      WFState (lastState s0 updates) := by
  induction updates with
  | nil => intro s0 h _; exact h
  | cons u rest ih =>
    intro s0 _ hu
    exact ih u.1 (hu u (List.mem_cons_self _ _))
      (fun v hv => hu v (List.mem_cons_of_mem _ hv))

/-- `RollbackTo` on a live object with a nonempty history and a target at
or after creation: it succeeds and hands `SetFields` the undo loop's
result together with the target time. -/
theorem rollbackTo_live (first : auditHistory) (rest : History)
    (ls : FieldSlice) (t : Time) (hge : ¬ t < first.signature.timestamp) :
    RollbackTo (first :: rest) (liveObj ls) t
      = .ok ⟨undoTail (first :: rest) ls t, t⟩ := by
  have hred : RollbackTo (first :: rest) (liveObj ls) t
      = (if t < first.signature.timestamp then Except.error GoErr.errDidNotExist
         else
           if (¬ Time.IsZero (0 : Time)) ∧ (0 : Time) < t then
             Except.error (GoErr.alreadyRolledBack 0 t)
           else
             Except.ok ⟨((first :: rest).drop 1).reverse.foldl
               (rollbackStep (decide (¬ Time.IsZero (0 : Time))) 0 t) ls, t⟩) := rfl
  rw [hred, if_neg hge, if_neg (by simp [Time.IsZero])]
  rfl

/-- C1 auxiliary: running the trace and rolling back. -/
theorem trace_rollback_main
    (s0 : FieldSlice) (sig0 : Signature) (updates : List (FieldSlice × Signature))
    (histOut : History) (assocOut : List (Time × FieldSlice))
    (hrun : runAuditTrace s0 sig0 updates = some (histOut, assocOut))
    (hWF0 : WFState s0) (hWFu : ∀ u ∈ updates, WFState u.1)
    (t : Time) (ht : sig0.timestamp ≤ t) :
    RollbackTo histOut (liveObj (lastState s0 updates)) t
        = .ok ⟨undoTail histOut (lastState s0 updates) t, t⟩ ∧
      mapEq (undoTail histOut (lastState s0 updates) t) (specState assocOut t) := by
  have hrun2 : runAudits [⟨[⟨"", magicValueHistoryCreation⟩], sig0⟩] s0
      [(sig0.timestamp, s0)] updates = some (histOut, assocOut) := hrun
  obtain ⟨hhead, hneOut⟩ := runAudits_head updates _ s0 _ histOut assocOut hrun2 (by simp)
  obtain ⟨tail, htail⟩ :
      ∃ tail, histOut = (⟨[⟨"", magicValueHistoryCreation⟩], sig0⟩ : auditHistory) :: tail := by
    cases histOut with
    | nil => exact absurd rfl hneOut
    | cons a r =>
      simp only [List.head?_cons] at hhead
      cases hhead
      exact ⟨r, rfl⟩
  have hWFlast : WFState (lastState s0 updates) := lastState_WF updates s0 hWF0 hWFu
  have hbase : ∀ cur2, (cur2.map Field.name).Nodup → mapEq cur2 s0 →
      mapEq (undoTail [⟨[⟨"", magicValueHistoryCreation⟩], sig0⟩] cur2 t)
          (specState [(sig0.timestamp, s0)] t) ∧
        ((undoTail [⟨[⟨"", magicValueHistoryCreation⟩], sig0⟩] cur2 t).map
            Field.name).Nodup := by
    intro cur2 hcnd2 hcur2
    have h1 : undoTail [⟨[⟨"", magicValueHistoryCreation⟩], sig0⟩] cur2 t = cur2 := rfl
    have h2 : specState [(sig0.timestamp, s0)] t = s0 := by
      simp [specState, stateAt, ht]
    rw [h1, h2]
    exact ⟨hcur2, hcnd2⟩
  have hmain := runAudits_rollback t updates _ s0 [(sig0.timestamp, s0)]
      histOut assocOut hrun2 (by simp) (by simp) (by simp) hWF0 hWFu hbase
      (lastState s0 updates) hWFlast.1 (fun m => rfl)
  refine ⟨?_, hmain.1⟩
  rw [htail]
  rw [rollbackTo_live _ tail (lastState s0 updates) t (not_lt_of_le ht)]

/-! ## Claim theorems -/

/-- **C1.** For every `AuditableValues` built by an initial creation
`Audit` followed by successful update `Audit`s over well-formed live
object states (unique field names, no magic marker values — the spec's
`FieldSlice` data model), and for every target time `t` at or after the
creation timestamp, `RollbackTo` on a live object whose fields equal the
latest audited state succeeds and passes to the object's `SetFields` a
field set equal, as a name-to-value mapping, to the audited state at time
`t` — the state after the latest entry whose timestamp is `≤ t`
(`specState assocOut t`, where `assocOut` pairs each appended entry's
timestamp with its post-audit state; entries with timestamp `≤ t` are
kept, later ones undone) — together with `tRollback = t`.  In particular,
`t` equal to an update's timestamp yields the post-update state. -/
theorem rollbackTo_restores_audited_state
    (s0 : FieldSlice) (sig0 : Signature) (updates : List (FieldSlice × Signature))
    (histOut : History) (assocOut : List (Time × FieldSlice))
    (hrun : runAuditTrace s0 sig0 updates = some (histOut, assocOut))
    (hWF0 : WFState s0) (hWFu : ∀ u ∈ updates, WFState u.1)
    (t : Time) (ht : sig0.timestamp ≤ t) :
    ∃ result : ObjState,
      RollbackTo histOut (liveObj (lastState s0 updates)) t = .ok result ∧
      result.tRollback = t ∧
      mapEq result.fields (specState assocOut t) := by
  obtain ⟨h1, h2⟩ := trace_rollback_main s0 sig0 updates histOut assocOut hrun
    hWF0 hWFu t ht
  exact ⟨⟨undoTail histOut (lastState s0 updates) t, t⟩, h1, rfl, h2⟩

/-- Witness for C1 at a concrete two-step trace, rolled back between the
creation and the update. -/
theorem rollbackTo_restores_audited_state_witness :
    ∃ result : ObjState,
      RollbackTo
          [⟨[⟨"", magicValueHistoryCreation⟩], ⟨⟨"k", "u"⟩, 10⟩⟩,
           ⟨[⟨"a", Value.i32 1⟩], ⟨⟨"k", "u"⟩, 20⟩⟩]
          (liveObj [⟨"a", Value.i32 2⟩]) 15 = .ok result ∧
      result.tRollback = 15 ∧
      mapEq result.fields
        (specState [(10, [⟨"a", Value.i32 1⟩]), (20, [⟨"a", Value.i32 2⟩])] 15) :=
  rollbackTo_restores_audited_state [⟨"a", Value.i32 1⟩] ⟨⟨"k", "u"⟩, 10⟩
    [([⟨"a", Value.i32 2⟩], ⟨⟨"k", "u"⟩, 20⟩)]
    [⟨[⟨"", magicValueHistoryCreation⟩], ⟨⟨"k", "u"⟩, 10⟩⟩,
     ⟨[⟨"a", Value.i32 1⟩], ⟨⟨"k", "u"⟩, 20⟩⟩]
    [(10, [⟨"a", Value.i32 1⟩]), (20, [⟨"a", Value.i32 2⟩])]
    (by decide) (by decide) (by decide) 15 (by decide)

/-- **C2 counterexample.** With old fields `[a: 1]` and new fields
`[b: 2, a: 3]`, the code's reverse-delta is
`[{b, FIELD_REMOVED}, {a, 1}]` — the added-field entry precedes the
changed-field entry — while the claimed removed/changed/added
concatenation (`specDelta`) is `[{a, 1}, {b, FIELD_REMOVED}]`.  The claim
as stated is therefore false on the code. -/
theorem getHistoryFields_order_counterexample :
    getHistoryFields (some [⟨"a", Value.i32 1⟩]) [⟨"b", Value.i32 2⟩, ⟨"a", Value.i32 3⟩]
        = some [⟨"b", magicValueFieldRemoved⟩, ⟨"a", Value.i32 1⟩] ∧
      specDelta [⟨"a", Value.i32 1⟩] [⟨"b", Value.i32 2⟩, ⟨"a", Value.i32 3⟩]
        = [⟨"a", Value.i32 1⟩, ⟨"b", magicValueFieldRemoved⟩] ∧
      getHistoryFields (some [⟨"a", Value.i32 1⟩]) [⟨"b", Value.i32 2⟩, ⟨"a", Value.i32 3⟩]
        ≠ some (specDelta [⟨"a", Value.i32 1⟩] [⟨"b", Value.i32 2⟩, ⟨"a", Value.i32 3⟩]) :=
  ⟨rfl, rfl, by decide⟩

/-- **C2 (amended).** For every old slice `O` without magic marker values
(so the Go `equals` never panics) and every new slice `N`, the computed
reverse-delta is: the fields of `O` whose names are absent from `N`, in
`O`'s order, followed by — for each field of `N` in order — its
changed-field entry (the old field) or its added-field entry (the
`FIELD_REMOVED` marker); all removed-field entries precede the rest, but
changed- and added-field entries are interleaved in `N`'s order. -/
theorem getHistoryFields_delta_structure (O N : FieldSlice)
    (hO : ∀ f ∈ O, f.value.isMagic = false) :
    getHistoryFields (some O) N
      = some (O.filter (fun f => ¬ N.Contains f.name) ++ N.filterMap (deltaFun O)) :=
  getHistoryFields_eq O N hO

/-- Witness for the amended C2 at the counterexample's input. -/
theorem getHistoryFields_delta_structure_witness :
    (∀ f ∈ ([⟨"a", Value.i32 1⟩] : FieldSlice), f.value.isMagic = false) ∧
      getHistoryFields (some [⟨"a", Value.i32 1⟩])
          [⟨"b", Value.i32 2⟩, ⟨"a", Value.i32 3⟩]
        = some (([⟨"a", Value.i32 1⟩] : FieldSlice).filter
              (fun f => ¬ FieldSlice.Contains [⟨"b", Value.i32 2⟩, ⟨"a", Value.i32 3⟩] f.name)
            ++ ([⟨"b", Value.i32 2⟩, ⟨"a", Value.i32 3⟩] : FieldSlice).filterMap
              (deltaFun [⟨"a", Value.i32 1⟩])) :=
  ⟨by decide,
    getHistoryFields_delta_structure [⟨"a", Value.i32 1⟩]
      [⟨"b", Value.i32 2⟩, ⟨"a", Value.i32 3⟩] (by decide)⟩

/-- **C9 counterexample.** On the empty history, `SignaturesForField`
returns `[Signature.zero]`, which is not a subsequence of
`Signatures() = []`; the claim's "for every history" is false on the
code. -/
theorem signaturesForField_empty_history_counterexample :
    SignaturesForField [] "x" = [Signature.zero] ∧
      Signatures ([] : History) = [] ∧
      ¬ (SignaturesForField [] "x").Sublist (Signatures ([] : History)) :=
  ⟨rfl, rfl, by simp [SignaturesForField, Signatures, CreationSignature]⟩

/-- **C9 (amended).** For every nonempty history whose first entry is the
creation entry (single synthetic field with empty name) and every
nonempty field name `k`, `SignaturesForField k` equals the creation
signature followed by the signatures of exactly the update entries
mentioning `k`, in ascending (history) order, and is a subsequence of
`Signatures()` beginning with `CreationSignature()`. -/
theorem signaturesForField_structure (sig0 : Signature) (tail : History) (k : String)
    (hk : k ≠ "") :
    SignaturesForField (⟨[⟨"", magicValueHistoryCreation⟩], sig0⟩ :: tail) k
        = CreationSignature (⟨[⟨"", magicValueHistoryCreation⟩], sig0⟩ :: tail) ::
            (tail.filter (fun h => h.fields.any (fun f => f.name = k))).map (·.signature) ∧
      (SignaturesForField (⟨[⟨"", magicValueHistoryCreation⟩], sig0⟩ :: tail) k).Sublist
        (Signatures (⟨[⟨"", magicValueHistoryCreation⟩], sig0⟩ :: tail)) ∧
      (SignaturesForField (⟨[⟨"", magicValueHistoryCreation⟩], sig0⟩ :: tail) k).head?
        = some (CreationSignature (⟨[⟨"", magicValueHistoryCreation⟩], sig0⟩ :: tail)) := by
  have hfil : (⟨[⟨"", magicValueHistoryCreation⟩], sig0⟩ :: tail).filter
      (fun h => h.fields.any (fun f => f.name = k))
      = tail.filter (fun h => h.fields.any (fun f => f.name = k)) := by
    rw [List.filter_cons_of_neg]
    simp [Ne.symm hk]
  refine ⟨?_, ?_, rfl⟩
  · unfold SignaturesForField
    rw [hfil]
  · unfold SignaturesForField Signatures
    rw [hfil]
    show (CreationSignature _ :: _).Sublist (sig0 :: tail.map (·.signature))
    exact List.Sublist.cons₂ _ ((List.filter_sublist tail).map (·.signature))

/-- Witness for the amended C9: a one-update history queried for its
only real field name. -/
theorem signaturesForField_structure_witness :
    "a" ≠ "" ∧
      SignaturesForField
          [⟨[⟨"", magicValueHistoryCreation⟩], ⟨⟨"k", "u"⟩, 10⟩⟩,
           ⟨[⟨"a", Value.i32 1⟩], ⟨⟨"k", "u"⟩, 20⟩⟩] "a"
        = CreationSignature
            [⟨[⟨"", magicValueHistoryCreation⟩], ⟨⟨"k", "u"⟩, 10⟩⟩,
             ⟨[⟨"a", Value.i32 1⟩], ⟨⟨"k", "u"⟩, 20⟩⟩] ::
          (([⟨[⟨"a", Value.i32 1⟩], ⟨⟨"k", "u"⟩, 20⟩⟩] : History).filter
              (fun h => h.fields.any (fun f => f.name = "a"))).map (·.signature) :=
  ⟨by decide,
    (signaturesForField_structure ⟨⟨"k", "u"⟩, 10⟩
      [⟨[⟨"a", Value.i32 1⟩], ⟨⟨"k", "u"⟩, 20⟩⟩] "a" (by decide)).1⟩

/-- Helper for C10: an `Audit` call that returns an error always reports
`changed = false` and leaves the history untouched. -/
theorem audit_error_shape (h : History) (old : Option AuditableObject)
    (new : AuditableObject) (sig : Signature) (h2 : History) (c : Bool) (e : GoErr)
    (herr : Audit h old new sig = some (h2, c, some e)) : h2 = h ∧ c = false := by
  have hnew : ∀ hh oldF, Audit.auditNew hh oldF new sig = some (h2, c, some e) →
      h2 = hh ∧ c = false := by
    intro hh oldF hx
    unfold Audit.auditNew at hx
    cases hget : new.get with
    | error e2 =>
      simp only [hget] at hx
      cases hx
      exact ⟨rfl, rfl⟩
    | ok st =>
      simp only [hget] at hx
      by_cases hz : st.tRollback.IsZero
      · rw [if_neg (not_not_intro hz)] at hx
        cases hgf : getHistoryFields oldF st.fields with
        | none =>
          simp only [hgf] at hx
          cases hx
        | some cf =>
          simp only [hgf] at hx
          by_cases hlen : cf.length = 0
          · rw [if_pos hlen] at hx
            cases hx
          · rw [if_neg hlen] at hx
            cases hx
      · rw [if_pos hz] at hx
        cases hx
        exact ⟨rfl, rfl⟩
  have hbody : ∀ hh oldO, Audit.auditBody hh oldO new sig = some (h2, c, some e) →
      h2 = hh ∧ c = false := by
    intro hh oldO hx
    cases oldO with
    | none => exact hnew hh none hx
    | some o =>
      have hx2 : (match o.get with
          | Except.error e2 => some (hh, false, some e2)
          | Except.ok oldSt =>
            if ¬ oldSt.tRollback.IsZero then some (hh, false, some GoErr.auditRolledBack)
            else Audit.auditNew hh (some oldSt.fields) new sig) = some (h2, c, some e) := hx

      cases hget : o.get with
      | error e2 =>
        simp only [hget] at hx2
        cases hx2
        exact ⟨rfl, rfl⟩
      | ok st =>
        simp only [hget] at hx2
        by_cases hz : st.tRollback.IsZero
        · rw [if_neg (not_not_intro hz)] at hx2
          exact hnew hh (some st.fields) hx2
        · rw [if_pos hz] at hx2
          cases hx2
          exact ⟨rfl, rfl⟩
  cases hL : h.getLast? with
  | none =>
    have hx : Audit.auditBody h old new sig = some (h2, c, some e) := by
      unfold Audit at herr
      rwa [hL] at herr
    exact hbody h old hx
  | some L =>
    unfold Audit at herr
    rw [hL] at herr
    cases old with
    | none =>
      have hx : (some (h, false, some GoErr.oldObjNil) :
          Option (History × Bool × Option GoErr)) = some (h2, c, some e) := herr
      cases hx
      exact ⟨rfl, rfl⟩
    | some o =>
      have hx : (if ¬ sig.timestamp > L.signature.timestamp then
            some (h, false, some (GoErr.invalidSigTimestamp sig.timestamp
              L.signature.timestamp))
          else Audit.auditBody h (some o) new sig) = some (h2, c, some e) := herr
      by_cases hts : sig.timestamp > L.signature.timestamp
      · rw [if_neg (not_not_intro hts)] at hx
        exact hbody h (some o) hx
      · rw [if_pos hts] at hx
        cases hx
        exact ⟨rfl, rfl⟩

/-- **C10.** `Audit` is atomic on failure: whenever it returns an error —
missing old object, non-monotonic signature timestamp, a `GetFields`
error from either object, or a rolled-back input object — the history is
left exactly as it was before the call (and `changed` is `false`); the
single append happens only on the success path. -/
theorem audit_atomic_on_error (h : History) (old : Option AuditableObject)
    (new : AuditableObject) (sig : Signature) (h2 : History) (c : Bool) (e : GoErr)
    (herr : Audit h old new sig = some (h2, c, some e)) : h2 = h ∧ c = false :=
  audit_error_shape h old new sig h2 c e herr

/-- Witness for C10: a nonempty history audited with a nil old object
errors and leaves the history unchanged. -/
theorem audit_atomic_on_error_witness :
    Audit [⟨[⟨"", magicValueHistoryCreation⟩], ⟨⟨"k", "u"⟩, 10⟩⟩] none
        (liveObj [⟨"a", Value.i32 1⟩]) ⟨⟨"k", "u"⟩, 20⟩
      = some ([⟨[⟨"", magicValueHistoryCreation⟩], ⟨⟨"k", "u"⟩, 10⟩⟩], false,
          some GoErr.oldObjNil) ∧
    ([⟨[⟨"", magicValueHistoryCreation⟩], ⟨⟨"k", "u"⟩, 10⟩⟩] : History)
        = [⟨[⟨"", magicValueHistoryCreation⟩], ⟨⟨"k", "u"⟩, 10⟩⟩] ∧
    false = false :=
  ⟨by decide,
    (audit_atomic_on_error [⟨[⟨"", magicValueHistoryCreation⟩], ⟨⟨"k", "u"⟩, 10⟩⟩]
      none (liveObj [⟨"a", Value.i32 1⟩]) ⟨⟨"k", "u"⟩, 20⟩ _ false GoErr.oldObjNil
      (by decide)).1,
    (audit_atomic_on_error [⟨[⟨"", magicValueHistoryCreation⟩], ⟨⟨"k", "u"⟩, 10⟩⟩]
      none (liveObj [⟨"a", Value.i32 1⟩]) ⟨⟨"k", "u"⟩, 20⟩
      [⟨[⟨"", magicValueHistoryCreation⟩], ⟨⟨"k", "u"⟩, 10⟩⟩] _ GoErr.oldObjNil
      (by decide)).2⟩

/-- Forward computation of a live-object `Audit` whose guards pass. -/
theorem audit_live_compute (hist : History) (prev s : FieldSlice) (sig : Signature)
    (d : FieldSlice) (hd : getHistoryFields (some prev) s = some d)
    (hguard : ∀ L, hist.getLast? = some L → sig.timestamp > L.signature.timestamp) :
    Audit hist (some (liveObj prev)) (liveObj s) sig
      = some (if d.length = 0 then (hist, false, none)
              else (hist ++ [⟨d, sig⟩], true, none)) := by
  have hbody : Audit.auditBody hist (some (liveObj prev)) (liveObj s) sig
      = some (if d.length = 0 then (hist, false, none)
              else (hist ++ [⟨d, sig⟩], true, none)) := by
    have h1 : Audit.auditBody hist (some (liveObj prev)) (liveObj s) sig
        = (if ¬ (Time.IsZero (0 : Time)) then some (hist, false, some GoErr.auditRolledBack)
           else Audit.auditNew hist (some prev) (liveObj s) sig) := rfl
    rw [h1, if_neg (by simp [Time.IsZero])]
    have h2 : Audit.auditNew hist (some prev) (liveObj s) sig
        = (if ¬ (Time.IsZero (0 : Time)) then some (hist, false, some GoErr.auditRolledBack)
           else match getHistoryFields (some prev) s with
             | none => none
             | some changedFields =>
               if changedFields.length = 0 then some (hist, false, none)
               else some (hist ++ [⟨changedFields, sig⟩], true, none)) := rfl
    rw [h2, if_neg (by simp [Time.IsZero])]
    simp only [hd]
    by_cases hlen : d.length = 0 <;> simp [hlen]
  cases hL : hist.getLast? with
  | none =>
    have hx : Audit hist (some (liveObj prev)) (liveObj s) sig
        = Audit.auditBody hist (some (liveObj prev)) (liveObj s) sig := by
      unfold Audit
      rw [hL]
    rw [hx, hbody]
  | some L =>
    have hx : Audit hist (some (liveObj prev)) (liveObj s) sig
        = (if ¬ sig.timestamp > L.signature.timestamp then
             some (hist, false, some (GoErr.invalidSigTimestamp sig.timestamp
               L.signature.timestamp))
           else Audit.auditBody hist (some (liveObj prev)) (liveObj s) sig) := by
      unfold Audit
      rw [hL]
    rw [hx, if_neg (not_not_intro (hguard L hL)), hbody]

/-- **C7.** Auditing a well-formed live object state against an identical
copy (the computed reverse-delta is empty) returns `(false, nil)` and
leaves the history completely unchanged, whenever the call's timestamp
guard passes; and — for every `Audit` call — an entry is appended if and
only if `Audit` returns `changed = true`. -/
theorem audit_noop_and_append_iff :
    (∀ (hist : History) (s : FieldSlice) (sig : Signature),
        WFState s →
        (∀ L, hist.getLast? = some L → sig.timestamp > L.signature.timestamp) →
        Audit hist (some (liveObj s)) (liveObj s) sig = some (hist, false, none))
    ∧ (∀ (hist : History) (old : Option AuditableObject) (new : AuditableObject)
        (sig : Signature) (h2 : History) (c : Bool) (eOpt : Option GoErr),
        Audit hist old new sig = some (h2, c, eOpt) →
        (c = true → eOpt = none ∧ ∃ d, d ≠ [] ∧ h2 = hist ++ [⟨d, sig⟩]) ∧
        (c = false → h2 = hist)) := by
  constructor
  · intro hist s sig hWF hguard
    have hfil : s.filter (fun f => ¬ FieldSlice.Contains s f.name) = [] := by
      apply List.filter_eq_nil.mpr
      intro f hf
      simp [(contains_iff s f.name).mpr (List.mem_map_of_mem _ hf)]
    have hfm : s.filterMap (deltaFun s) = [] := by
      apply List.filterMap_eq_nil.mpr
      intro g hg
      simp [deltaFun, tryGet_self_of_nodup s hWF.1 g hg]
    have hdelta : getHistoryFields (some s) s = some [] := by
      rw [getHistoryFields_eq s s hWF.2, hfil, hfm]
      rfl
    rw [audit_live_compute hist s s sig [] hdelta hguard]
    simp
  · intro hist old new sig h2 c eOpt hx
    constructor
    · intro hc
      subst hc
      cases eOpt with
      | none =>
        rcases audit_success_shape hist old new sig h2 true hx with ⟨_, hfalse⟩ |
          ⟨d, hdne, hh, _⟩
        · cases hfalse
        · exact ⟨rfl, d, hdne, hh⟩
      | some e =>
        have hfalse := (audit_error_shape hist old new sig h2 true e hx).2
        cases hfalse
    · intro hc
      subst hc
      cases eOpt with
      | none =>
        rcases audit_success_shape hist old new sig h2 false hx with ⟨hh, _⟩ |
          ⟨d, _, _, htrue⟩
        · exact hh
        · cases htrue
      | some e => exact (audit_error_shape hist old new sig h2 false e hx).1

/-- Witness for C7: a fresh object audited against itself on the empty
history reports no change. -/
theorem audit_noop_and_append_iff_witness :
    Audit [] (some (liveObj [⟨"a", Value.i32 1⟩])) (liveObj [⟨"a", Value.i32 1⟩])
        ⟨⟨"k", "u"⟩, 10⟩ = some ([], false, none) :=
  audit_noop_and_append_iff.1 [] [⟨"a", Value.i32 1⟩] ⟨⟨"k", "u"⟩, 10⟩ (by decide)
    (fun L hL => by simp at hL)

/-- **C6.** `Audit` checks its preconditions in order and fails with the
exact stated messages: with a non-empty history and an absent `oldObj`,
the missing-old message; with a non-empty history and a signature
timestamp not strictly after the latest entry's, the invalid-timestamp
message carrying both timestamps; and when a supplied object (old or new)
reports a nonzero `tRollback`, the rolled-back message. -/
theorem audit_precondition_errors (hist : History) (L : auditHistory)
    (hL : hist.getLast? = some L) (newObj : AuditableObject) (sig : Signature) :
    (Audit hist none newObj sig = some (hist, false, some GoErr.oldObjNil)
      ∧ GoErr.oldObjNil.message
        = "oldObj cannot be nil when there is an audit history. Only allowed on initial audit")
    ∧ (∀ o : AuditableObject, ¬ sig.timestamp > L.signature.timestamp →
        Audit hist (some o) newObj sig
            = some (hist, false,
                some (GoErr.invalidSigTimestamp sig.timestamp L.signature.timestamp))
          ∧ (GoErr.invalidSigTimestamp sig.timestamp L.signature.timestamp).message
            = "invalid signature timestamp: must be after latest audit timestamp (signature: "
              ++ timeString sig.timestamp ++ ", latest audit: "
              ++ timeString L.signature.timestamp ++ ")")
    ∧ (∀ (o : AuditableObject) (st : ObjState),
        sig.timestamp > L.signature.timestamp → o.get = .ok st → st.tRollback ≠ 0 →
        Audit hist (some o) newObj sig = some (hist, false, some GoErr.auditRolledBack)
          ∧ GoErr.auditRolledBack.message = "cannot audit based on a rolled back object")
    ∧ (∀ (o : AuditableObject) (ost nst : ObjState),
        sig.timestamp > L.signature.timestamp → o.get = .ok ost → ost.tRollback = 0 →
        newObj.get = .ok nst → nst.tRollback ≠ 0 →
        Audit hist (some o) newObj sig
          = some (hist, false, some GoErr.auditRolledBack)) := by
  refine ⟨⟨?_, rfl⟩, ?_, ?_, ?_⟩
  · unfold Audit
    rw [hL]
  · intro o hts
    refine ⟨?_, rfl⟩
    have hx : Audit hist (some o) newObj sig
        = (if ¬ sig.timestamp > L.signature.timestamp then
             some (hist, false, some (GoErr.invalidSigTimestamp sig.timestamp
               L.signature.timestamp))
           else Audit.auditBody hist (some o) newObj sig) := by
      unfold Audit
      rw [hL]
    rw [hx, if_pos hts]
  · intro o st hts hget hne0
    refine ⟨?_, rfl⟩
    have hx : Audit hist (some o) newObj sig
        = (if ¬ sig.timestamp > L.signature.timestamp then
             some (hist, false, some (GoErr.invalidSigTimestamp sig.timestamp
               L.signature.timestamp))
           else Audit.auditBody hist (some o) newObj sig) := by
      unfold Audit
      rw [hL]
    rw [hx, if_neg (not_not_intro hts)]
    have hb : Audit.auditBody hist (some o) newObj sig
        = (match o.get with
           | Except.error e => some (hist, false, some e)
           | Except.ok oldSt =>
             if ¬ oldSt.tRollback.IsZero then
               some (hist, false, some GoErr.auditRolledBack)
             else Audit.auditNew hist (some oldSt.fields) newObj sig) := rfl
    rw [hb]
    simp only [hget]
    rw [if_pos (by simp [Time.IsZero, hne0])]
  · intro o ost nst hts hget h0 hnget hne0
    have hx : Audit hist (some o) newObj sig
        = (if ¬ sig.timestamp > L.signature.timestamp then
             some (hist, false, some (GoErr.invalidSigTimestamp sig.timestamp
               L.signature.timestamp))
           else Audit.auditBody hist (some o) newObj sig) := by
      unfold Audit
      rw [hL]
    rw [hx, if_neg (not_not_intro hts)]
    have hb : Audit.auditBody hist (some o) newObj sig
        = (match o.get with
           | Except.error e => some (hist, false, some e)
           | Except.ok oldSt =>
             if ¬ oldSt.tRollback.IsZero then
               some (hist, false, some GoErr.auditRolledBack)
             else Audit.auditNew hist (some oldSt.fields) newObj sig) := rfl
    rw [hb]
    simp only [hget]
    rw [if_neg (by simp [Time.IsZero, h0])]
    have hn : Audit.auditNew hist (some ost.fields) newObj sig
        = (match newObj.get with
           | Except.error e => some (hist, false, some e)
           | Except.ok newSt =>
             if ¬ newSt.tRollback.IsZero then
               some (hist, false, some GoErr.auditRolledBack)
             else match getHistoryFields (some ost.fields) newSt.fields with
               | none => none
               | some changedFields =>
                 if changedFields.length = 0 then some (hist, false, none)
                 else some (hist ++ [⟨changedFields, sig⟩], true, none)) := rfl
    rw [hn]
    simp only [hnget]
    rw [if_pos (by simp [Time.IsZero, hne0])]

/-- Witness for C6: the missing-old and non-monotonic-timestamp errors at
a concrete history. -/
theorem audit_precondition_errors_witness :
    (Audit [⟨[⟨"", magicValueHistoryCreation⟩], ⟨⟨"k", "u"⟩, 10⟩⟩] none
          (liveObj [⟨"a", Value.i32 1⟩]) ⟨⟨"k", "u"⟩, 20⟩
        = some ([⟨[⟨"", magicValueHistoryCreation⟩], ⟨⟨"k", "u"⟩, 10⟩⟩], false,
            some GoErr.oldObjNil)
      ∧ GoErr.oldObjNil.message
        = "oldObj cannot be nil when there is an audit history. Only allowed on initial audit")
    ∧ (Audit [⟨[⟨"", magicValueHistoryCreation⟩], ⟨⟨"k", "u"⟩, 10⟩⟩]
          (some (liveObj [⟨"a", Value.i32 1⟩])) (liveObj [⟨"a", Value.i32 1⟩])
          ⟨⟨"k", "u"⟩, 5⟩
        = some ([⟨[⟨"", magicValueHistoryCreation⟩], ⟨⟨"k", "u"⟩, 10⟩⟩], false,
            some (GoErr.invalidSigTimestamp 5 10))) :=
  ⟨(audit_precondition_errors [⟨[⟨"", magicValueHistoryCreation⟩], ⟨⟨"k", "u"⟩, 10⟩⟩]
      ⟨[⟨"", magicValueHistoryCreation⟩], ⟨⟨"k", "u"⟩, 10⟩⟩ rfl
      (liveObj [⟨"a", Value.i32 1⟩]) ⟨⟨"k", "u"⟩, 20⟩).1,
    ((audit_precondition_errors [⟨[⟨"", magicValueHistoryCreation⟩], ⟨⟨"k", "u"⟩, 10⟩⟩]
      ⟨[⟨"", magicValueHistoryCreation⟩], ⟨⟨"k", "u"⟩, 10⟩⟩ rfl
      (liveObj [⟨"a", Value.i32 1⟩]) ⟨⟨"k", "u"⟩, 5⟩).2.1
      (liveObj [⟨"a", Value.i32 1⟩]) (by decide)).1⟩

/-- Forward computation of `RollbackTo` for an object whose `GetFields`
and `SetFields` succeed. -/
theorem rollbackTo_compute (first : auditHistory) (rest : History)
    (obj : AuditableObject) (st : ObjState) (t : Time)
    (hget : obj.get = .ok st) (hset : obj.setErr = none) :
    RollbackTo (first :: rest) obj t
      = if t < first.signature.timestamp then .error .errDidNotExist
        else if (¬ st.tRollback.IsZero) ∧ st.tRollback < t then
          .error (.alreadyRolledBack st.tRollback t)
        else .ok ⟨((first :: rest).drop 1).reverse.foldl
            (rollbackStep (¬ st.tRollback.IsZero) st.tRollback t) st.fields, t⟩ := by
  have hred : RollbackTo (first :: rest) obj t
      = (if t < first.signature.timestamp then Except.error GoErr.errDidNotExist
         else
           match obj.get with
           | Except.error e => Except.error (GoErr.rollbackWrapped e)
           | Except.ok st2 =>
             if (¬ st2.tRollback.IsZero) ∧ st2.tRollback < t then
               Except.error (GoErr.alreadyRolledBack st2.tRollback t)
             else
               match obj.setErr with
               | some e => Except.error e
               | none => Except.ok ⟨((first :: rest).drop 1).reverse.foldl
                   (rollbackStep (¬ st2.tRollback.IsZero) st2.tRollback t) st2.fields, t⟩) :=
    rfl
  rw [hred]
  by_cases h1 : t < first.signature.timestamp
  · rw [if_pos h1, if_pos h1]
  · rw [if_neg h1, if_neg h1]
    simp only [hget, hset]

/-- **C5.** Given an object whose `GetFields` and `SetFields` succeed,
`RollbackTo(obj, t)` returns an error if and only if the history is empty
(the empty-history message), or `t` is strictly before the creation
entry's timestamp (the distinguished `ErrDidNotExist`), or the object is
already rolled back with `tRollback` strictly before `t` (the
rollback-monotonicity error); in every other case — in particular for any
target at or before the current rollback timestamp — it succeeds and
leaves the object's `tRollback = t`. -/
theorem rollbackTo_error_characterization (hist : History) (obj : AuditableObject)
    (st : ObjState) (hget : obj.get = .ok st) (hset : obj.setErr = none) (t : Time) :
    ((∃ e, RollbackTo hist obj t = .error e) ↔
        (hist = [] ∨ t < (CreationSignature hist).timestamp
          ∨ (st.tRollback ≠ 0 ∧ st.tRollback < t)))
    ∧ (hist = [] → RollbackTo hist obj t = .error .emptyHistory
        ∧ GoErr.emptyHistory.message = "invalid state: empty history")
    ∧ (∀ first rest, hist = first :: rest → t < first.signature.timestamp →
        RollbackTo hist obj t = .error .errDidNotExist
          ∧ GoErr.errDidNotExist.message = "the object did not exist at the given time")
    ∧ (∀ first rest, hist = first :: rest → ¬ t < first.signature.timestamp →
        st.tRollback ≠ 0 → st.tRollback < t →
        RollbackTo hist obj t = .error (.alreadyRolledBack st.tRollback t))
    ∧ (∀ first rest, hist = first :: rest → ¬ t < first.signature.timestamp →
        ¬ (st.tRollback ≠ 0 ∧ st.tRollback < t) →
        ∃ cur, RollbackTo hist obj t = .ok ⟨cur, t⟩) := by
  have hzb : (¬ st.tRollback.IsZero) ↔ st.tRollback ≠ 0 := by
    simp [Time.IsZero]
  refine ⟨?_, ?_, ?_, ?_, ?_⟩
  · constructor
    · rintro ⟨e, he⟩
      cases hist with
      | nil => exact Or.inl rfl
      | cons first rest =>
        rw [rollbackTo_compute first rest obj st t hget hset] at he
        by_cases h1 : t < first.signature.timestamp
        · exact Or.inr (Or.inl (by simpa [CreationSignature] using h1))
        · rw [if_neg h1] at he
          by_cases h2 : (¬ st.tRollback.IsZero) ∧ st.tRollback < t
          · exact Or.inr (Or.inr ⟨hzb.mp h2.1, h2.2⟩)
          · rw [if_neg h2] at he
            cases he
    · intro hcases
      cases hist with
      | nil => exact ⟨GoErr.emptyHistory, rfl⟩
      | cons first rest =>
        rw [rollbackTo_compute first rest obj st t hget hset]
        rcases hcases with hnil | hlt | ⟨hne0, hmono⟩
        · cases hnil
        · simp only [CreationSignature] at hlt
          exact ⟨GoErr.errDidNotExist, by rw [if_pos hlt]⟩
        · by_cases h1 : t < first.signature.timestamp
          · exact ⟨GoErr.errDidNotExist, by rw [if_pos h1]⟩
          · exact ⟨GoErr.alreadyRolledBack st.tRollback t,
              by rw [if_neg h1, if_pos ⟨hzb.mpr hne0, hmono⟩]⟩
  · intro hnil
    subst hnil
    exact ⟨rfl, rfl⟩
  · intro first rest hh hlt
    subst hh
    rw [rollbackTo_compute first rest obj st t hget hset, if_pos hlt]
    exact ⟨rfl, rfl⟩
  · intro first rest hh hge hne0 hmono
    subst hh
    rw [rollbackTo_compute first rest obj st t hget hset, if_neg hge,
      if_pos ⟨hzb.mpr hne0, hmono⟩]
  · intro first rest hh hge hnot
    subst hh
    rw [rollbackTo_compute first rest obj st t hget hset, if_neg hge,
      if_neg (fun hc => hnot ⟨hzb.mp hc.1, hc.2⟩)]
    exact ⟨_, rfl⟩

/-- Witness for C5: rolling back before creation yields exactly
`ErrDidNotExist`. -/
theorem rollbackTo_error_characterization_witness :
    RollbackTo [⟨[⟨"", magicValueHistoryCreation⟩], ⟨⟨"k", "u"⟩, 10⟩⟩]
        (liveObj [⟨"a", Value.i32 1⟩]) 5
      = .error GoErr.errDidNotExist ∧
    GoErr.errDidNotExist.message = "the object did not exist at the given time" :=
  (rollbackTo_error_characterization
      [⟨[⟨"", magicValueHistoryCreation⟩], ⟨⟨"k", "u"⟩, 10⟩⟩]
      (liveObj [⟨"a", Value.i32 1⟩]) ⟨[⟨"a", Value.i32 1⟩], 0⟩ rfl rfl 5).2.2.1
    ⟨[⟨"", magicValueHistoryCreation⟩], ⟨⟨"k", "u"⟩, 10⟩⟩ [] rfl (by decide)

/-- **C8.** Signature serialization accepts exactly the UTC timestamps
that are zero or within the inclusive bounds `minAllowed`
(1970-01-01T00:00:00.000000001Z) and `maxAllowed` (2200-01-01T00:00:00Z);
out-of-bounds nonzero timestamps fail with the out-of-bounds message; the
zero timestamp is written as the integer 0 and any in-bounds timestamp as
its `UnixNano` value. -/
theorem signature_serialize_bounds (a : Auditor) (ts : Time) :
    ((∃ toks, Signature.SerializeToBufRW ⟨a, ts⟩ = .ok toks) ↔
        (ts = 0 ∨ (minAllowed ≤ ts ∧ ts ≤ maxAllowed)))
    ∧ (ts = 0 →
        Signature.SerializeToBufRW ⟨a, ts⟩ = .ok [.int 1, .str a.Encode, .int64 0])
    ∧ (minAllowed ≤ ts → ts ≤ maxAllowed →
        Signature.SerializeToBufRW ⟨a, ts⟩
          = .ok [.int 1, .str a.Encode, .int64 (Time.UnixNano ts)])
    ∧ (ts ≠ 0 → (ts < minAllowed ∨ ts > maxAllowed) →
        Signature.SerializeToBufRW ⟨a, ts⟩ = .error (.sigOutOfBounds ts)
          ∧ (GoErr.sigOutOfBounds ts).message
            = "signature timestamp " ++ timeString ts ++ " is out of bounds") := by
  have hmin0 : (0 : Time) < minAllowed := by decide
  have hnotbound : minAllowed ≤ ts → ts ≤ maxAllowed →
      ¬ (ts < minAllowed ∨ ts > maxAllowed) := by
    intro h1 h2
    rintro (h | h)
    · exact lt_irrefl ts (lt_of_lt_of_le h h1)
    · exact lt_irrefl ts (lt_of_le_of_lt h2 h)
  refine ⟨?_, ?_, ?_, ?_⟩
  · constructor
    · rintro ⟨toks, htoks⟩
      unfold Signature.SerializeToBufRW at htoks
      by_cases hc : (¬ Time.IsZero ts) ∧ (ts < minAllowed ∨ ts > maxAllowed)
      · rw [if_pos hc] at htoks
        cases htoks
      · by_cases hz : ts = 0
        · exact Or.inl hz
        · right
          rw [not_and_or] at hc
          rcases hc with hc | hc
          · rw [not_not] at hc
            simp [Time.IsZero, hz] at hc
          · push_neg at hc
            exact hc
    · intro hcases
      unfold Signature.SerializeToBufRW
      rcases hcases with hz | ⟨h1, h2⟩
      · rw [if_neg (fun hc => hc.1 (by simp [Time.IsZero, hz]))]
        exact ⟨_, rfl⟩
      · rw [if_neg (fun hc => hnotbound h1 h2 hc.2)]
        exact ⟨_, rfl⟩
  · intro hz
    unfold Signature.SerializeToBufRW
    rw [if_neg (fun hc => hc.1 (by simp [Time.IsZero, hz]))]
    simp [Time.IsZero, hz]
  · intro h1 h2
    have hz : ts ≠ 0 := fun h0 => absurd (h0 ▸ h1) (not_le_of_lt hmin0)
    unfold Signature.SerializeToBufRW
    rw [if_neg (fun hc => hnotbound h1 h2 hc.2)]
    simp [Time.IsZero, hz]
  · intro hz hbound
    refine ⟨?_, rfl⟩
    unfold Signature.SerializeToBufRW
    rw [if_pos ⟨by simp [Time.IsZero, hz], hbound⟩]

/-- Witness for C8 at the boundary timestamps. -/
theorem signature_serialize_bounds_witness :
    Signature.SerializeToBufRW ⟨⟨"k", "u"⟩, minAllowed⟩
        = .ok [.int 1, .str (Auditor.Encode ⟨"k", "u"⟩), .int64 (Time.UnixNano minAllowed)]
    ∧ Signature.SerializeToBufRW ⟨⟨"k", "u"⟩, unixEpochNano⟩
        = .error (.sigOutOfBounds unixEpochNano) ∧
      (GoErr.sigOutOfBounds unixEpochNano).message
        = "signature timestamp " ++ timeString unixEpochNano ++ " is out of bounds" :=
  ⟨(signature_serialize_bounds ⟨"k", "u"⟩ minAllowed).2.2.1 (le_refl _) (by decide),
    (signature_serialize_bounds ⟨"k", "u"⟩ unixEpochNano).2.2.2
      (by decide) (Or.inl (by decide))⟩

/-! ### Codec round-trip lemmas -/

/-- Splitting a separator-free string yields the whole string. -/
theorem splitOnChar_no_sep (i : List Char) (hi : '/' ∉ i) :
    splitOnChar '/' i = [i] := by
  induction i with
  | nil => rfl
  | cons c rest ih =>
    have hc : ¬ c = '/' := fun h => hi (h ▸ List.mem_cons_self c rest)
    have hrest : '/' ∉ rest := fun h => hi (List.mem_cons_of_mem c h)
    simp only [splitOnChar, if_neg hc, ih hrest]

/-- Splitting `k ++ "/" ++ i` with separator-free parts yields the two
parts. -/
theorem splitOnChar_append (k i : List Char) (hk : '/' ∉ k) (hi : '/' ∉ i) :
    splitOnChar '/' (k ++ '/' :: i) = [k, i] := by
  induction k with
  | nil =>
    simp [List.nil_append, splitOnChar, splitOnChar_no_sep i hi]
  | cons c rest ih =>
    have hc : ¬ c = '/' := fun h => hk (h ▸ List.mem_cons_self c rest)
    have hrest : '/' ∉ rest := fun h => hk (List.mem_cons_of_mem c h)
    simp only [List.cons_append, splitOnChar, if_neg hc, List.append_eq, ih hrest]

/-- Decoding an encoded slash-free auditor restores it. -/
theorem auditor_decode_encode (a : Auditor) (hk : slashFree a.kind)
    (hi : slashFree a.id) : Auditor.Decode a.Encode = some a := by
  obtain ⟨⟨k⟩, ⟨i⟩⟩ := a
  unfold Auditor.Decode Auditor.Encode
  have htl : (String.mk k ++ "/" ++ String.mk i).toList = k ++ '/' :: i := by
    show (k ++ ['/']) ++ i = k ++ '/' :: i
    rw [List.append_assoc]
    rfl
  rw [htl, splitOnChar_append k i hk hi]

/-- What a successful signature serialization wrote, and the bound it
enforced. -/
theorem sigSerialize_ok (sig : Signature) (toks : List Token)
    (h : Signature.SerializeToBufRW sig = .ok toks) :
    toks = [.int 1, .str sig.auditor.Encode,
        .int64 (if ¬ Time.IsZero sig.timestamp then Time.UnixNano sig.timestamp else 0)]
      ∧ (sig.timestamp = 0 ∨ (minAllowed ≤ sig.timestamp ∧ sig.timestamp ≤ maxAllowed)) := by
  unfold Signature.SerializeToBufRW at h
  by_cases hc : (¬ Time.IsZero sig.timestamp)
      ∧ (sig.timestamp < minAllowed ∨ sig.timestamp > maxAllowed)
  · rw [if_pos hc] at h
    cases h
  · rw [if_neg hc] at h
    cases h
    refine ⟨rfl, ?_⟩
    by_cases hz : sig.timestamp = 0
    · exact Or.inl hz
    · right
      rw [not_and_or] at hc
      rcases hc with hc | hc
      · rw [not_not] at hc
        simp [Time.IsZero, hz] at hc
      · push_neg at hc
        exact hc

/-- A serializable signature round-trips through its codec, consuming
exactly its tokens. -/
theorem sig_roundtrip (sig : Signature) (toks rest : List Token)
    (h : Signature.SerializeToBufRW sig = .ok toks)
    (hk : slashFree sig.auditor.kind) (hi : slashFree sig.auditor.id) :
    Signature.DeserializeFromBufRW (toks ++ rest) = .ok (sig, rest) := by
  obtain ⟨rfl, hb⟩ := sigSerialize_ok sig toks h
  obtain ⟨aud, ts⟩ := sig
  simp only at hb hk hi ⊢
  have hred : Signature.DeserializeFromBufRW
      (.int 1 :: .str aud.Encode ::
        .int64 (if ¬ Time.IsZero ts then Time.UnixNano ts else 0) :: rest)
      = (if (1 : Int) ≠ 1 then Except.error (GoErr.unsupportedVersion 1)
         else match Auditor.Decode aud.Encode with
           | none => Except.error (GoErr.invalidAuditorEncoding aud.Encode)
           | some auditor =>
             if (if ¬ Time.IsZero ts then Time.UnixNano ts else 0) < 0
             then Except.error (GoErr.negativeUnixNano
               (if ¬ Time.IsZero ts then Time.UnixNano ts else 0))
             else Except.ok (⟨auditor,
               if (if ¬ Time.IsZero ts then Time.UnixNano ts else 0) > 0
               then timeOfUnixNano (if ¬ Time.IsZero ts then Time.UnixNano ts else 0)
               else 0⟩, rest)) := rfl
  simp only [List.cons_append, List.nil_append]
  by_cases hz : ts = 0
  · have hif : (if ¬ Time.IsZero ts then Time.UnixNano ts else 0) = 0 := by
      simp [Time.IsZero, hz]
    rw [hif] at hred ⊢
    rw [hred]
    simp [auditor_decode_encode aud hk hi, hz]
  · have hbound : minAllowed ≤ ts ∧ ts ≤ maxAllowed := by
      rcases hb with h0 | hb2
      · exact absurd h0 hz
      · exact hb2
    have hnano : 0 < Time.UnixNano ts := by
      have h1 : (unixEpochNano : Int) + 1 ≤ ts := hbound.1
      show (0 : Int) < ts - unixEpochNano
      omega
    have hneg : ¬ Time.UnixNano ts < 0 := not_lt.mpr (le_of_lt hnano)
    have hback : timeOfUnixNano (Time.UnixNano ts) = ts :=
      Int.sub_add_cancel ts unixEpochNano
    have hif : (if ¬ Time.IsZero ts then Time.UnixNano ts else 0) = Time.UnixNano ts := by
      simp [Time.IsZero, hz]
    rw [hif] at hred ⊢
    rw [hred]
    simp [auditor_decode_encode aud hk hi, hneg, hnano, hback]

/-- `int8` values survive the byte cast round trip. -/
theorem int8_roundtrip (n : Int) (h1 : -128 ≤ n) (h2 : n < 128) :
    int8OfByte (byteOfInt8 n) = n := by
  unfold byteOfInt8 int8OfByte
  have hnn : 0 ≤ n % 256 := Int.emod_nonneg n (by decide)
  have hlt : n % 256 < 256 := Int.emod_lt_of_pos n (by decide)
  have hcast : (((n % 256).toNat : Nat) : Int) = n % 256 := Int.toNat_of_nonneg hnn
  have hmod : ((n % 256).toNat : Nat) % 256 = (n % 256).toNat := by
    apply Nat.mod_eq_of_lt
    omega
  rw [hmod]
  by_cases hsmall : 0 ≤ n
  · have hn256 : n % 256 = n := Int.emod_eq_of_lt hsmall (by omega)
    rw [if_pos (by omega)]
    omega
  · have hn256 : n % 256 = n + 256 := by omega
    rw [if_neg (by omega)]
    omega

/-- A value's tagged tokens are read back as the value. -/
theorem value_roundtrip (v : Value) (hm : MagicRange v) (rest : List Token) :
    ∃ tag payload, serializeValueTokens v = .byte tag :: payload ∧
      readValue tag (payload ++ rest) = .ok v rest := by
  cases v with
  | magic n =>
    refine ⟨0, _, rfl, ?_⟩
    simp only [List.cons_append, List.nil_append, readValue]
    rw [int8_roundtrip n hm.1 hm.2]
  | str s => exact ⟨1, _, rfl, rfl⟩
  | boolV b => exact ⟨2, _, rfl, rfl⟩
  | i32 n => exact ⟨3, _, rfl, rfl⟩
  | i64 n => exact ⟨4, _, rfl, rfl⟩
  | f64 x => exact ⟨5, _, rfl, rfl⟩
  | strs l => exact ⟨6, _, rfl, rfl⟩
  | bools l => exact ⟨7, _, rfl, rfl⟩
  | i32s l => exact ⟨8, _, rfl, rfl⟩
  | i64s l => exact ⟨9, _, rfl, rfl⟩
  | f64s l => exact ⟨10, _, rfl, rfl⟩
  | bytes l => exact ⟨11, _, rfl, rfl⟩

/-- A signature whose timestamp is the zero time or within the
serializer's bounds serializes successfully, to its three tokens. -/
theorem sigSerialize_succeeds (sig : Signature)
    (hb : sig.timestamp = 0 ∨
      (minAllowed ≤ sig.timestamp ∧ sig.timestamp ≤ maxAllowed)) :
    Signature.SerializeToBufRW sig =
      .ok [.int 1, .str sig.auditor.Encode,
        .int64 (if ¬ Time.IsZero sig.timestamp then Time.UnixNano sig.timestamp else 0)] := by
  have hc : ¬ ((¬ Time.IsZero sig.timestamp) ∧
      (sig.timestamp < minAllowed ∨ sig.timestamp > maxAllowed)) := by
    rintro ⟨h1, h2⟩
    rcases hb with hz | ⟨hmin, hmax⟩
    · exact h1 (by simp [Time.IsZero, hz])
    · rcases h2 with h2 | h2
      · exact absurd hmin (not_le.mpr h2)
      · exact absurd hmax (not_le.mpr h2)
  unfold Signature.SerializeToBufRW
  rw [if_neg hc]

/-- The name table written by `SerializeTo` reads back as itself. -/
theorem readFieldNames_roundtrip (names : List String) (rest : List Token) :
    readFieldNames names.length (names.map .str ++ rest) = .ok names rest := by
  induction names with
  | nil => rfl
  | cons x xs ih =>
    simp only [List.length_cons, List.map_cons, List.cons_append, readFieldNames,
      List.append_eq, ih]

/-- `stringSlice.IndexOf` on a present element returns a valid index of
that element. -/
theorem stringIndexOf_mem (slice : List String) (s : String) (h : s ∈ slice) :
    ∃ k : Nat, stringIndexOf slice s = Int.ofNat k ∧
      ∃ hk : k < slice.length, slice.get ⟨k, hk⟩ = s := by
  induction slice with
  | nil => cases h
  | cons x rest ih =>
    by_cases he : x = s
    · exact ⟨0, by simp [stringIndexOf, he], Nat.succ_pos _, he⟩
    · have hmem : s ∈ rest := by
        rcases List.mem_cons.mp h with h1 | h1
        · exact absurd h1.symm he
        · exact h1
      obtain ⟨k, hk, hlt, hget⟩ := ih hmem
      refine ⟨k + 1, ?_, Nat.succ_lt_succ hlt, hget⟩
      simp only [stringIndexOf, if_neg he]
      rw [hk]
      rfl

/-- Membership in an accumulator survives a fold whose step preserves it. -/
theorem foldl_mem_invariant {α β : Type} (g : β → α → β) (p : β → Prop)
    (hstep : ∀ b a, p b → p (g b a)) :
    ∀ (l : List α) (b : β), p b → p (l.foldl g b) := by
  intro l
  induction l with
  | nil => exact fun b hb => hb
  | cons x xs ih => exact fun b hb => ih (g b x) (hstep b x hb)

/-- The inner interning fold never drops a name already collected. -/
theorem collect_inner_mono (fields : FieldSlice) (acc : List String) (n : String)
    (hn : n ∈ acc) :
    n ∈ fields.foldl
      (fun acc2 field =>
        if acc2.contains field.name then acc2 else acc2 ++ [field.name]) acc :=
  foldl_mem_invariant _ (fun l => n ∈ l)
    (fun b a hb => by
      by_cases hc : a.name ∈ b <;> simp [hc, hb]) fields acc hn

/-- The inner interning fold collects the name of every field it scans. -/
theorem collect_inner_covers (fields : FieldSlice) (acc : List String)
    (f : Field) (hf : f ∈ fields) :
    f.name ∈ fields.foldl
      (fun acc2 field =>
        if acc2.contains field.name then acc2 else acc2 ++ [field.name]) acc := by
  induction fields generalizing acc with
  | nil => cases hf
  | cons x xs ih =>
    rcases List.mem_cons.mp hf with rfl | hmem
    · simp only [List.foldl_cons]
      apply collect_inner_mono
      by_cases hc : f.name ∈ acc <;> simp [hc]
    · exact ih _ hmem

/-- Every field name of every history entry appears in the interned name
table `SerializeTo` writes. -/
theorem collectFieldNames_covers (values : History) (obj : auditHistory)
    (hobj : obj ∈ values) (f : Field) (hf : f ∈ obj.fields) :
    f.name ∈ collectFieldNames values := by
  unfold collectFieldNames
  have main : ∀ (vs : History) (acc : List String), obj ∈ vs →
      f.name ∈ vs.foldl
        (fun acc obj =>
          obj.fields.foldl
            (fun acc2 field =>
              if acc2.contains field.name then acc2 else acc2 ++ [field.name]) acc) acc := by
    intro vs
    induction vs with
    | nil => intro acc hm; cases hm
    | cons v vt ih =>
      intro acc hm
      rcases List.mem_cons.mp hm with rfl | hmem
      · simp only [List.foldl_cons]
        exact foldl_mem_invariant _ (fun l => f.name ∈ l)
          (fun b a hb => collect_inner_mono a.fields b f.name hb) vt _
          (collect_inner_covers obj.fields acc f hf)
      · exact ih _ hmem
  exact main values [] hobj

/-- The field block `SerializeTo` writes for one entry reads back as the
same fields, provided every field name was interned and magic payloads
are in `int8` range. -/
theorem readFields_roundtrip (fieldNames : List String) (fields : FieldSlice)
    (hnames : ∀ f ∈ fields, f.name ∈ fieldNames)
    (hmag : ∀ f ∈ fields, MagicRange f.value) (rest : List Token) :
    readFields fieldNames fields.length
      (fields.flatMap (serializeFieldTokens fieldNames) ++ rest) = .ok fields rest := by
  induction fields generalizing rest with
  | nil => rfl
  | cons f fs ih =>
    obtain ⟨fn, fv⟩ := f
    have hn1 : fn ∈ fieldNames := hnames ⟨fn, fv⟩ (List.mem_cons_self _ _)
    obtain ⟨k, hk, hlt, hget⟩ := stringIndexOf_mem fieldNames fn hn1
    obtain ⟨tag, payload, hser, hread⟩ := value_roundtrip fv
      (hmag ⟨fn, fv⟩ (List.mem_cons_self _ _))
      (fs.flatMap (serializeFieldTokens fieldNames) ++ rest)
    have hih := ih (fun g hg => hnames g (List.mem_cons_of_mem _ hg))
      (fun g hg => hmag g (List.mem_cons_of_mem _ hg)) rest
    rw [show ((⟨fn, fv⟩ : Field) :: fs : FieldSlice).flatMap (serializeFieldTokens fieldNames)
        = Token.int (stringIndexOf fieldNames fn) :: (serializeValueTokens fv
            ++ fs.flatMap (serializeFieldTokens fieldNames)) from rfl]
    rw [List.cons_append, List.append_assoc, hk, hser, List.cons_append]
    simp only [List.length_cons, readFields]
    have hcond : 0 ≤ Int.ofNat k ∧ (Int.ofNat k).toNat < fieldNames.length :=
      ⟨Int.natCast_nonneg k, hlt⟩
    rw [dif_pos hcond]
    simp only [hread, hih]
    have hname : fieldNames.get ⟨(Int.ofNat k).toNat, hcond.2⟩ = fn := hget
    rw [hname]

/-- The entry blocks `SerializeTo` writes read back as the same history,
entry by entry, consuming exactly their tokens. -/
theorem entries_roundtrip (fieldNames : List String) (hist : History)
    (hser : SerializableHistory hist)
    (hnames : ∀ obj ∈ hist, ∀ f ∈ obj.fields, f.name ∈ fieldNames) (rest : List Token) :
    ∃ entryToks, serializeEntries fieldNames hist = .ok entryToks ∧
      readEntries fieldNames hist.length (entryToks ++ rest) = .ok hist rest := by
  induction hist generalizing rest with
  | nil => exact ⟨[], rfl, rfl⟩
  | cons obj rest' ih =>
    obtain ⟨flds, sig⟩ := obj
    obtain ⟨hb, hk, hi, hmag⟩ := hser ⟨flds, sig⟩ (List.mem_cons_self _ _)
    have hserT : SerializableHistory rest' := fun o ho => hser o (List.mem_cons_of_mem _ ho)
    have hnamesT : ∀ o ∈ rest', ∀ f ∈ o.fields, f.name ∈ fieldNames :=
      fun o ho => hnames o (List.mem_cons_of_mem _ ho)
    obtain ⟨restToks, hs1, hr1⟩ := ih hserT hnamesT rest
    have hsig := sigSerialize_succeeds sig hb
    refine ⟨Token.int 1 :: Token.str sig.auditor.Encode ::
        Token.int64 (if ¬ Time.IsZero sig.timestamp then Time.UnixNano sig.timestamp else 0) ::
        Token.int (flds.length : Int) ::
        (flds.flatMap (serializeFieldTokens fieldNames) ++ restToks), ?_, ?_⟩
    · simp only [serializeEntries, hsig, hs1, List.cons_append, List.nil_append,
        List.append_assoc]
    · rw [List.cons_append, List.cons_append, List.cons_append, List.cons_append,
        List.append_assoc]
      simp only [List.length_cons, readEntries]
      have hd : Signature.DeserializeFromBufRW
          (Token.int 1 :: Token.str sig.auditor.Encode ::
            Token.int64 (if ¬ Time.IsZero sig.timestamp then Time.UnixNano sig.timestamp else 0) ::
            Token.int (flds.length : Int) ::
            (flds.flatMap (serializeFieldTokens fieldNames) ++ (restToks ++ rest)))
          = .ok (sig, Token.int (flds.length : Int) ::
              (flds.flatMap (serializeFieldTokens fieldNames) ++ (restToks ++ rest))) :=
        sig_roundtrip sig
          [Token.int 1, Token.str sig.auditor.Encode,
            Token.int64 (if ¬ Time.IsZero sig.timestamp then Time.UnixNano sig.timestamp else 0)]
          (Token.int (flds.length : Int) ::
            (flds.flatMap (serializeFieldTokens fieldNames) ++ (restToks ++ rest)))
          hsig hk hi
      simp only [hd]
      rw [if_neg (not_lt.mpr (Int.natCast_nonneg flds.length))]
      have hflds2 : readFields fieldNames ((flds.length : Int)).toNat
          (flds.flatMap (serializeFieldTokens fieldNames) ++ (restToks ++ rest))
          = .ok flds (restToks ++ rest) :=
        readFields_roundtrip fieldNames flds
          (hnames ⟨flds, sig⟩ (List.mem_cons_self _ _)) hmag (restToks ++ rest)
      simp only [hflds2, hr1]

/-- C3: a history of the twelve enumerated value shapes with serializable
signatures (in-bounds or zero timestamps, separator-free auditor parts,
`int8` magic payloads) serializes successfully and deserializes back to a
structurally equal history, via the interned name table. -/
theorem serialize_deserialize_roundtrip (hist : History)
    (hser : SerializableHistory hist) :
    ∃ toks, SerializeTo hist = .ok toks ∧ DeserializeFrom toks = .ok hist [] := by
  have hnames : ∀ obj ∈ hist, ∀ f ∈ obj.fields, f.name ∈ collectFieldNames hist :=
    fun o ho f hf => collectFieldNames_covers hist o ho f hf
  obtain ⟨entryToks, hs, hr⟩ := entries_roundtrip (collectFieldNames hist) hist hser hnames []
  rw [List.append_nil] at hr
  refine ⟨Token.byte 1 :: Token.int ((collectFieldNames hist).length : Int)
      :: ((collectFieldNames hist).map Token.str
        ++ Token.int (hist.length : Int) :: entryToks), ?_, ?_⟩
  · simp only [SerializeTo, hs, List.cons_append]
  · have hn := readFieldNames_roundtrip (collectFieldNames hist)
      (Token.int (hist.length : Int) :: entryToks)
    have hlen : ¬ ((collectFieldNames hist).length : Int) < 0 :=
      not_lt.mpr (Int.natCast_nonneg _)
    have hhn : ¬ (hist.length : Int) < 0 := not_lt.mpr (Int.natCast_nonneg _)
    simp only [DeserializeFrom]
    rw [if_neg (by decide : ¬ (1 : Nat) ≠ 1), if_neg hlen]
    have hn2 : readFieldNames (((collectFieldNames hist).length : Int)).toNat
        ((collectFieldNames hist).map Token.str ++ Token.int (hist.length : Int) :: entryToks)
        = .ok (collectFieldNames hist) (Token.int (hist.length : Int) :: entryToks) := hn
    simp only [hn2]
    rw [if_neg hhn]
    exact hr

theorem serialize_deserialize_roundtrip_witness :
    SerializableHistory histS8 ∧
      ∃ toks, SerializeTo histS8 = .ok toks ∧ DeserializeFrom toks = .ok histS8 [] := by
  have h : SerializableHistory histS8 := by decide
  exact ⟨h, serialize_deserialize_roundtrip histS8 h⟩

/-- C4 counterexample: a stream whose field carries an out-of-range
interned-name index makes `DeserializeFrom` crash (Go: unchecked slice
index panics) instead of returning an error. -/
theorem deserialize_nameIndex_panic :
    DeserializeFrom
      [.byte 1, .int 1, .str "a", .int 1, .int 1, .str "k/u", .int64 0,
        .int 1, .int 5, .byte 2, .boolT true]
      = .panic := by
  rfl

/-- C4 (amended): deserialization returns an error when the version byte
is not 1 and when a field's type tag is outside the 12 known tags; an
out-of-range interned-name index, however, panics rather than erroring
(see the counterexample). -/
theorem deserialize_failure_modes (v tag : Nat) (hv : v ≠ 1) (ht : 12 ≤ tag) :
    (∀ rest, DeserializeFrom (.byte v :: rest) = .err (.invalidVersion v)) ∧
    DeserializeFrom
      [.byte 1, .int 1, .str "a", .int 1, .int 1, .str "k/u", .int64 0,
        .int 1, .int 0, .byte tag]
      = .err (.invalidValueType tag) := by
  constructor
  · intro rest
    simp only [DeserializeFrom]
    rw [if_pos hv]
  · obtain ⟨k, rfl⟩ : ∃ k, tag = k + 12 := ⟨tag - 12, by omega⟩
    have hrv : readValue (k + 12) [] = .err (.invalidValueType (k + 12)) := by
      show (if k + 12 ≥ 12 then DOut.err (GoErr.invalidValueType (k + 12))
          else DOut.err .ioError) = DOut.err (GoErr.invalidValueType (k + 12))
      rw [if_pos (by omega : k + 12 ≥ 12)]
    have h1 : DeserializeFrom
        [.byte 1, .int 1, .str "a", .int 1, .int 1, .str "k/u", .int64 0,
          .int 1, .int 0, .byte (k + 12)]
        = (match readFields ["a"] 1 [.int 0, .byte (k + 12)] with
           | .ok fields rest3 =>
             match readEntries ["a"] 0 rest3 with
             | .ok entries rest4 => .ok (⟨fields, ⟨⟨"k", "u"⟩, 0⟩⟩ :: entries) rest4
             | .err e => .err e
             | .panic => .panic
           | .err e => .err e
           | .panic => .panic) := rfl
    have h2 : readFields ["a"] 1 [.int 0, .byte (k + 12)]
        = (match readValue (k + 12) [] with
           | .ok value rest3 =>
             match readFields ["a"] 0 rest3 with
             | .ok fields rest4 => .ok (⟨"a", value⟩ :: fields) rest4
             | .err e => .err e
             | .panic => .panic
           | .err e => .err e
           | .panic => .panic) := rfl
    rw [h1, h2, hrv]

theorem deserialize_failure_modes_witness :
    (2 : Nat) ≠ 1 ∧ 12 ≤ 12 ∧
      DeserializeFrom [.byte 2] = .err (.invalidVersion 2) ∧
      DeserializeFrom
        [.byte 1, .int 1, .str "a", .int 1, .int 1, .str "k/u", .int64 0,
          .int 1, .int 0, .byte 12]
        = .err (.invalidValueType 12) :=
  ⟨by decide, by decide,
    (deserialize_failure_modes 2 12 (by decide) (by decide)).1 [],
    (deserialize_failure_modes 2 12 (by decide) (by decide)).2⟩

end Audit
